import Mathlib

/-!
# Intraday Market-Structure Analytics Engine — verification development

Shallow embedding of the analytics core of the `eod-ohlc-data` repository:

* `calculate_vwap`, `calculate_volume_profile`, `calculate_opening_range`,
  `find_key_volume_events`, `get_vwap_interaction` from `src/pages/1_processor.py`;
* the pre-market volume-profile (POC / VAH / VAL) computation inside
  `process_premarket_bars_to_summary` from `src/pages/2_pipeline_engine.py`.

Prices, volumes and timestamps are modelled as rationals (`ℚ`); a pandas
timestamp is represented by its offset in minutes from an arbitrary origin, so
`t + pd.Timedelta(minutes=m)` becomes `t + m`.  A pandas `NaN` (and the values
it poisons, such as an all-`NaN` VWAP series entry) is modelled by `Option.none`;
pandas comparisons against `NaN`, which evaluate to `False`, are modelled by
`Option`-aware comparisons that return `false` on `none`.  An exception escaping
a function is modelled by `Except.error`.
-/

/-- One OHLCV observation: one row of the per-ticker DataFrame
(`Datetime`, `Open`, `High`, `Low`, `Close`, `Volume`).  The timestamp is
measured in minutes. -/
structure Bar where
  datetime : ℚ
  opn : ℚ
  high : ℚ
  low : ℚ
  close : ℚ
  volume : ℚ
deriving DecidableEq, Repr

/-- `(df['High'] + df['Low'] + df['Close']) / 3`, the typical price of a bar. -/
def Bar.tp (b : Bar) : ℚ := (b.high + b.low + b.close) / 3

/-- `(df['High'] + df['Low']) / 2`, the mid-price of a bar. -/
def Bar.mid (b : Bar) : ℚ := (b.high + b.low) / 2

/-- `df['Volume'].sum()`. -/
def totalVolume (df : List Bar) : ℚ := (df.map Bar.volume).sum

/-- `df['Low'].min()` (junk value `0` on an empty frame; all uses are guarded). -/
def minLow (df : List Bar) : ℚ :=
  match df.map Bar.low with
  | [] => 0
  | x :: xs => xs.foldl min x

/-- `df['High'].max()` (junk value `0` on an empty frame; all uses are guarded). -/
def maxHigh (df : List Bar) : ℚ :=
  match df.map Bar.high with
  | [] => 0
  | x :: xs => xs.foldl max x

/-- `df['Datetime'].min()` (junk value `0` on an empty frame; guarded). -/
def minDatetime (df : List Bar) : ℚ :=
  match df.map Bar.datetime with
  | [] => 0
  | x :: xs => xs.foldl min x

/-- `series.cumsum()`: the list of running partial sums. -/
def cumsum : ℚ → List ℚ → List ℚ
  | _, [] => []
  | acc, x :: xs => (acc + x) :: cumsum (acc + x) xs

/-- `calculate_vwap` (src/pages/1_processor.py, lines 77–85).
If `df['Volume'].sum() == 0` the function returns an all-`NaN` series;
otherwise it returns `(tp * volume).cumsum() / volume.cumsum()` elementwise,
where an entry with zero cumulative volume is the `NaN` (`none`) sentinel. -/
def calculate_vwap (df : List Bar) : List (Option ℚ) :=
  if totalVolume df = 0 then df.map (fun _ => none)
  else
    List.zipWith (fun a b => if b = 0 then none else some (a / b))
      (cumsum 0 (df.map (fun b => b.tp * b.volume)))
      (cumsum 0 (df.map Bar.volume))

/-- Independent specification formula: `Σ_{j ≤ i} typical_price·volume` over the
first `i+1` bars. -/
def prefixTPV (df : List Bar) (i : ℕ) : ℚ :=
  ((df.take (i + 1)).map (fun b => b.tp * b.volume)).sum

/-- Independent specification formula: `Σ_{j ≤ i} volume` over the first `i+1`
bars. -/
def prefixVol (df : List Bar) (i : ℕ) : ℚ :=
  ((df.take (i + 1)).map Bar.volume).sum

lemma cumsum_length (acc : ℚ) (l : List ℚ) : (cumsum acc l).length = l.length := by
  induction l generalizing acc with
  | nil => rfl
  | cons x xs ih => simp [cumsum, ih]

lemma cumsum_getD (acc : ℚ) (l : List ℚ) (i : ℕ) (hi : i < l.length) :
    (cumsum acc l).getD i 0 = acc + (l.take (i + 1)).sum := by
  induction l generalizing acc i with
  | nil => simp at hi
  | cons x xs ih =>
    cases i with
    | zero => simp [cumsum]
    | succ j =>
      have hj : j < xs.length := by simpa using hi
      simp only [cumsum, List.getD_cons_succ, List.take_succ_cons, List.sum_cons]
      rw [ih (acc + x) j hj]
      ring

lemma calculate_vwap_length (df : List Bar) :
    (calculate_vwap df).length = df.length := by
  unfold calculate_vwap
  split
  · simp
  · simp [cumsum_length]

lemma zipWith_getD_none (f : ℚ → ℚ → Option ℚ) (l1 l2 : List ℚ) (i : ℕ)
    (h1 : i < l1.length) (h2 : i < l2.length) :
    (List.zipWith f l1 l2).getD i none = f (l1.getD i 0) (l2.getD i 0) := by
  induction l1 generalizing l2 i with
  | nil => simp at h1
  | cons x xs ih =>
    cases l2 with
    | nil => simp at h2
    | cons y ys =>
      cases i with
      | zero => rfl
      | succ j =>
        have hj1 : j < xs.length := by simpa using h1
        have hj2 : j < ys.length := by simpa using h2
        simpa using ih ys j hj1 hj2

/-- Fixture session for the VWAP witness: two bars with typical prices 2 and 4
and volumes 1 and 3. -/
def dfVW : List Bar :=
  [⟨0, 2, 3, 1, 2, 1⟩, ⟨5, 3, 6, 2, 4, 3⟩]

/-- `series.min()` over a nonempty list of rationals (junk `0` on `[]`). -/
def minQ : List ℚ → ℚ
  | [] => 0
  | x :: xs => xs.foldl min x

/-- `series.max()` over a nonempty list of rationals (junk `0` on `[]`). -/
def maxQ : List ℚ → ℚ
  | [] => 0
  | x :: xs => xs.foldl max x

/-- Geometry of `pd.cut(series, bins=n)`: `n` equal-width, right-closed bins
over `[series.min(), series.max()]`.  pandas produces edges
`linspace(mn, mx, n+1)` and then pulls the very first edge down by 0.1% of the
range so the minimum value falls inside bin 0; when the range is a single
point it instead widens both ends by 0.1% of the point's magnitude (or by
`0.001` when the point is `0`). -/
structure BinSpec where
  n : ℕ
  lo : ℚ
  firstLeft : ℚ
  width : ℚ
deriving DecidableEq, Repr

/-- Build the `pd.cut` bin geometry for a value list. -/
def mkBinSpec (xs : List ℚ) (n : ℕ) : BinSpec :=
  let mn := minQ xs
  let mx := maxQ xs
  if mn = mx then
    let d : ℚ := if mn = 0 then 1 / 1000 else |mn| / 1000
    ⟨n, mn - d, mn - d, 2 * d / (n : ℚ)⟩
  else
    ⟨n, mn, mn - (mx - mn) / 1000, (mx - mn) / (n : ℚ)⟩

/-- The (0-based) index of the right-closed bin a value falls into:
bin `k` is `(lo + k·width, lo + (k+1)·width]`, with bin 0 additionally
stretching left to `firstLeft`. -/
def BinSpec.idx (s : BinSpec) (x : ℚ) : ℕ := (⌈(x - s.lo) / s.width⌉ - 1).toNat

/-- The left endpoint of bin `k` (the pandas `Interval.left`). -/
def BinSpec.leftEdge (s : BinSpec) (k : ℕ) : ℚ :=
  if k = 0 then s.firstLeft else s.lo + (k : ℚ) * s.width

/-- The right endpoint of bin `k` (the pandas `Interval.right`). -/
def BinSpec.rightEdge (s : BinSpec) (k : ℕ) : ℚ := s.lo + ((k : ℚ) + 1) * s.width

/-- The midpoint of bin `k` (the pandas `Interval.mid`). -/
def BinSpec.midpoint (s : BinSpec) (k : ℕ) : ℚ := (s.leftEdge k + s.rightEdge k) / 2

/-- `df.groupby(price_bins)['Volume'].sum()` at one bin: the summed volume of
the bars whose binned price (`p b`) falls in bin `k`. -/
def binVolume (df : List Bar) (p : Bar → ℚ) (s : BinSpec) (k : ℕ) : ℚ :=
  ((df.filter (fun b => s.idx (p b) == k)).map Bar.volume).sum

/-- The first (lowest-key) entry of `x :: xs` attaining the maximum value:
a later entry displaces the current one only with a strictly greater value. -/
def firstMaxPair (x : ℕ × ℚ) : List (ℕ × ℚ) → ℕ × ℚ
  | [] => x
  | y :: ys => if (firstMaxPair y ys).2 > x.2 then firstMaxPair y ys else x

/-- `series.idxmax()`: the first (lowest-key) entry attaining the maximum
value, as a `(key, value)` pair. -/
def firstMax : List (ℕ × ℚ) → Option (ℕ × ℚ)
  | [] => none
  | x :: xs => some (firstMaxPair x xs)

/-- One insertion step of `oneDescSort`. -/
def insertDesc (x : ℕ × ℚ) : List (ℕ × ℚ) → List (ℕ × ℚ)
  | [] => [x]
  | y :: ys => if y.2 > x.2 then y :: insertDesc x ys else x :: y :: ys

/-- One *particular* value-descending reordering of a `(key, value)` list
(an insertion sort).  It is **not** a model of the program's sort:
`sort_values(ascending=False)` uses numpy's default `quicksort`, which
guarantees a value-descending permutation of its input but no particular
order among tied values.  Theorems about the program therefore take the
sorted frame as a parameter constrained to be *any* value-descending
permutation; `oneDescSort` only instantiates that parameter in concrete
(witness/counterexample) statements, where it is one of the orders the
program may produce. -/
def oneDescSort : List (ℕ × ℚ) → List (ℕ × ℚ)
  | [] => []
  | x :: xs => insertDesc x (oneDescSort xs)

/-- The boolean mask `sorted_by_vol[sorted_by_vol.cumsum() <= target]`:
keep the entries whose running total stays at or below `target`. -/
def maskCumLE (target : ℚ) : ℚ → List (ℕ × ℚ) → List (ℕ × ℚ)
  | _, [] => []
  | acc, x :: xs =>
    if acc + x.2 ≤ target then x :: maskCumLE target (acc + x.2) xs
    else maskCumLE target (acc + x.2) xs

/-- How `calculate_volume_profile` can fail to produce prices:
`nanTriple` is the early `return np.nan, np.nan, np.nan` (empty frame or zero
total volume); `emptyValueArea` is the crash when no bin survives the
`cumsum <= target` mask, so `value_area_bins.index.min()` is `NaN` and the
attribute access `.left` raises. -/
inductive VPErr where
  | nanTriple
  | emptyValueArea
deriving DecidableEq, Repr

/-- The bin geometry used by `calculate_volume_profile`:
`pd.cut(price_mid, bins=bins)` over the session's mid-prices `(High+Low)/2`. -/
def vpSpec (df : List Bar) (bins : ℕ) : BinSpec := mkBinSpec (df.map Bar.mid) bins

/-- `grouped = df.groupby(price_bins)['Volume'].sum()` as an ascending list of
`(bin index, summed volume)` pairs; a groupby over a categorical keeps every
one of the `bins` categories, including empty ones. -/
def vpGrouped (df : List Bar) (bins : ℕ) : List (ℕ × ℚ) :=
  (List.range bins).map (fun k => (k, binVolume df Bar.mid (vpSpec df bins) k))

/-- `total_volume = grouped.sum()`. -/
def vpTotal (df : List Bar) (bins : ℕ) : ℚ := ((vpGrouped df bins).map Prod.snd).sum

/-- `value_area_bins`: the bins kept by the `cumsum <= 0.70 * total` mask over
the descending-volume ordering `S` (the output of
`grouped.sort_values(ascending=False)`, supplied as a parameter because the
default quicksort fixes no order among equal-volume bins). -/
def vpVA (df : List Bar) (bins : ℕ) (S : List (ℕ × ℚ)) : List (ℕ × ℚ) :=
  maskCumLE (vpTotal df bins * (7 / 10)) 0 S

/-- `poc_bin = grouped.idxmax()` as a pair (junk `(0, 0)` on an empty
grouping, which needs `bins = 0`). -/
def vpPocPair (df : List Bar) (bins : ℕ) : ℕ × ℚ :=
  match firstMax (vpGrouped df bins) with
  | some y => y
  | none => (0, 0)

/-- `calculate_volume_profile` (src/pages/1_processor.py, lines 87–125):
returns `(poc_price, vah_price, val_price)` where
`poc_price = poc_bin.mid` for the first maximal-volume bin,
`vah_price` is the right edge of the highest value-area bin and
`val_price` the left edge of the lowest value-area bin.  `S` is the output
of `sorted_by_vol = grouped.sort_values(ascending=False)`: pandas guarantees
it is a volume-descending permutation of `grouped` but, with the default
quicksort, fixes no order among equal-volume bins, so it is a parameter and
the theorems quantify over every admissible value. -/
def calculate_volume_profile (df : List Bar) (bins : ℕ) (S : List (ℕ × ℚ)) :
    Except VPErr (ℚ × ℚ × ℚ) :=
  if df = [] ∨ totalVolume df = 0 then .error .nanTriple
  else
    match firstMax (vpGrouped df bins), vpVA df bins S with
    | some poc_bin, v :: vs =>
      .ok ((vpSpec df bins).midpoint poc_bin.1,
        (vpSpec df bins).rightEdge ((vs.map Prod.fst).foldl max v.1),
        (vpSpec df bins).leftEdge ((vs.map Prod.fst).foldl min v.1))
    | _, _ => .error .emptyValueArea


section FoldLemmas

variable {α : Type} [LinearOrder α]

lemma foldl_min_le_init (l : List α) (a : α) : l.foldl min a ≤ a := by
  induction l generalizing a with
  | nil => exact le_refl a
  | cons x xs ih => exact le_trans (ih (min a x)) (min_le_left a x)

lemma foldl_min_le_mem (l : List α) (a : α) (x : α) (hx : x ∈ l) :
    l.foldl min a ≤ x := by
  induction l generalizing a with
  | nil => cases hx
  | cons y ys ih =>
    rcases List.mem_cons.mp hx with rfl | hx'
    · exact le_trans (foldl_min_le_init ys (min a x)) (min_le_right a x)
    · exact ih (min a y) hx'

lemma foldl_min_eq_init_or_mem (l : List α) (a : α) :
    l.foldl min a = a ∨ l.foldl min a ∈ l := by
  induction l generalizing a with
  | nil => exact Or.inl rfl
  | cons y ys ih =>
    rcases ih (min a y) with h | h
    · rcases min_cases a y with ⟨h', _⟩ | ⟨h', _⟩
      · rw [List.foldl_cons, h, h']
        exact Or.inl rfl
      · rw [List.foldl_cons, h, h']
        exact Or.inr (List.mem_cons_self y ys)
    · exact Or.inr (List.mem_cons_of_mem y h)

lemma init_le_foldl_max (l : List α) (a : α) : a ≤ l.foldl max a := by
  induction l generalizing a with
  | nil => exact le_refl a
  | cons x xs ih => exact le_trans (le_max_left a x) (ih (max a x))

lemma mem_le_foldl_max (l : List α) (a : α) (x : α) (hx : x ∈ l) :
    x ≤ l.foldl max a := by
  induction l generalizing a with
  | nil => cases hx
  | cons y ys ih =>
    rcases List.mem_cons.mp hx with rfl | hx'
    · exact le_trans (le_max_right a x) (init_le_foldl_max ys (max a x))
    · exact ih (max a y) hx'

lemma foldl_max_eq_init_or_mem (l : List α) (a : α) :
    l.foldl max a = a ∨ l.foldl max a ∈ l := by
  induction l generalizing a with
  | nil => exact Or.inl rfl
  | cons y ys ih =>
    rcases ih (max a y) with h | h
    · rcases max_cases a y with ⟨h', _⟩ | ⟨h', _⟩
      · rw [List.foldl_cons, h, h']
        exact Or.inl rfl
      · rw [List.foldl_cons, h, h']
        exact Or.inr (List.mem_cons_self y ys)
    · exact Or.inr (List.mem_cons_of_mem y h)

end FoldLemmas

lemma minQ_le_mem (xs : List ℚ) (x : ℚ) (hx : x ∈ xs) : minQ xs ≤ x := by
  cases xs with
  | nil => cases hx
  | cons y ys =>
    rcases List.mem_cons.mp hx with rfl | hx'
    · exact foldl_min_le_init ys x
    · exact foldl_min_le_mem ys y x hx'

lemma mem_le_maxQ (xs : List ℚ) (x : ℚ) (hx : x ∈ xs) : x ≤ maxQ xs := by
  cases xs with
  | nil => cases hx
  | cons y ys =>
    rcases List.mem_cons.mp hx with rfl | hx'
    · exact init_le_foldl_max ys x
    · exact mem_le_foldl_max ys y x hx'

lemma minQ_le_maxQ (xs : List ℚ) (h : xs ≠ []) : minQ xs ≤ maxQ xs := by
  cases xs with
  | nil => exact absurd rfl h
  | cons y ys =>
    exact le_trans (minQ_le_mem _ y (List.mem_cons_self y ys))
      (mem_le_maxQ _ y (List.mem_cons_self y ys))

lemma mem_eq_of_minQ_eq_maxQ (xs : List ℚ) (x : ℚ) (hx : x ∈ xs)
    (h : minQ xs = maxQ xs) : x = minQ xs :=
  le_antisymm (h ▸ mem_le_maxQ xs x hx) (minQ_le_mem xs x hx)

lemma firstMaxPair_mem (x : ℕ × ℚ) (xs : List (ℕ × ℚ)) :
    firstMaxPair x xs ∈ x :: xs := by
  induction xs generalizing x with
  | nil => exact List.mem_cons_self x []
  | cons y ys ih =>
    unfold firstMaxPair
    split
    · exact List.mem_cons_of_mem x (ih y)
    · exact List.mem_cons_self x (y :: ys)

lemma firstMaxPair_ge (x : ℕ × ℚ) (xs : List (ℕ × ℚ)) :
    ∀ p ∈ x :: xs, p.2 ≤ (firstMaxPair x xs).2 := by
  induction xs generalizing x with
  | nil =>
    intro p hp
    rcases List.mem_cons.mp hp with rfl | hp'
    · exact le_refl _
    · cases hp'
  | cons y ys ih =>
    intro p hp
    unfold firstMaxPair
    split
    · rcases List.mem_cons.mp hp with rfl | hp'
      · next hgt => exact le_of_lt hgt
      · exact ih y p hp'
    · next hngt =>
      rcases List.mem_cons.mp hp with rfl | hp'
      · exact le_refl _
      · exact le_trans (ih y p hp') (not_lt.mp hngt)

lemma maskCumLE_subset (target acc : ℚ) (l : List (ℕ × ℚ)) (p : ℕ × ℚ)
    (hp : p ∈ maskCumLE target acc l) : p ∈ l := by
  induction l generalizing acc with
  | nil => cases hp
  | cons x xs ih =>
    unfold maskCumLE at hp
    split at hp
    · rcases List.mem_cons.mp hp with rfl | hp'
      · exact List.mem_cons_self p xs
      · exact List.mem_cons_of_mem x (ih _ hp')
    · exact List.mem_cons_of_mem x (ih _ hp)

lemma maskCumLE_eq_nil_of_gt (target : ℚ) (l : List (ℕ × ℚ)) :
    ∀ acc, (∀ p ∈ l, 0 ≤ p.2) → target < acc → maskCumLE target acc l = [] := by
  induction l with
  | nil => intro acc _ _; rfl
  | cons x xs ih =>
    intro acc hnn h
    have hx : 0 ≤ x.2 := hnn x (List.mem_cons_self x xs)
    have h' : target < acc + x.2 := lt_of_lt_of_le h (by linarith)
    show (if acc + x.2 ≤ target then _ else maskCumLE target (acc + x.2) xs) = []
    rw [if_neg (not_le.mpr h')]
    exact ih _ (fun p hp => hnn p (List.mem_cons_of_mem x hp)) h'

lemma maskCumLE_cons_of_ne_nil (target acc : ℚ) (x : ℕ × ℚ) (xs : List (ℕ × ℚ))
    (hnn : ∀ p ∈ x :: xs, 0 ≤ p.2)
    (h : maskCumLE target acc (x :: xs) ≠ []) :
    acc + x.2 ≤ target ∧
      maskCumLE target acc (x :: xs) = x :: maskCumLE target (acc + x.2) xs := by
  by_cases hle : acc + x.2 ≤ target
  · refine ⟨hle, ?_⟩
    show (if acc + x.2 ≤ target then x :: maskCumLE target (acc + x.2) xs
      else maskCumLE target (acc + x.2) xs) = _
    rw [if_pos hle]
  · exfalso
    apply h
    show (if acc + x.2 ≤ target then x :: maskCumLE target (acc + x.2) xs
      else maskCumLE target (acc + x.2) xs) = []
    rw [if_neg hle]
    exact maskCumLE_eq_nil_of_gt target xs _
      (fun p hp => hnn p (List.mem_cons_of_mem x hp)) (not_le.mp hle)

lemma binVolume_nonneg (df : List Bar) (p : Bar → ℚ) (s : BinSpec) (k : ℕ)
    (hv : ∀ b ∈ df, 0 ≤ b.volume) : 0 ≤ binVolume df p s k := by
  apply List.sum_nonneg
  intro x hx
  obtain ⟨b, hb, rfl⟩ := List.mem_map.mp hx
  exact hv b (List.mem_of_mem_filter hb)

lemma binVolume_cons (b : Bar) (df : List Bar) (p : Bar → ℚ) (s : BinSpec) (k : ℕ) :
    binVolume (b :: df) p s k
      = (if s.idx (p b) = k then b.volume else 0) + binVolume df p s k := by
  unfold binVolume
  rw [List.filter_cons]
  by_cases h : s.idx (p b) = k
  · simp [h]
  · simp [h]

lemma list_range_map_sum (f : ℕ → ℚ) (n : ℕ) :
    ((List.range n).map f).sum = ∑ k in Finset.range n, f k := by
  induction n with
  | zero => rfl
  | succ m ih => rw [List.range_succ, Finset.sum_range_succ, ← ih]; simp

lemma binVolume_partition (df : List Bar) (p : Bar → ℚ) (s : BinSpec) (n : ℕ)
    (h : ∀ b ∈ df, s.idx (p b) < n) :
    ∑ k in Finset.range n, binVolume df p s k = totalVolume df := by
  induction df with
  | nil => simp [binVolume, totalVolume]
  | cons b rest ih =>
    have hb : s.idx (p b) < n := h b (List.mem_cons_self b rest)
    have hrest : ∀ b' ∈ rest, s.idx (p b') < n :=
      fun b' hb' => h b' (List.mem_cons_of_mem b hb')
    calc ∑ k in Finset.range n, binVolume (b :: rest) p s k
        = ∑ k in Finset.range n,
            ((if s.idx (p b) = k then b.volume else 0) + binVolume rest p s k) :=
          Finset.sum_congr rfl (fun k _ => binVolume_cons b rest p s k)
      _ = (∑ k in Finset.range n, if s.idx (p b) = k then b.volume else 0)
            + ∑ k in Finset.range n, binVolume rest p s k := Finset.sum_add_distrib
      _ = b.volume + totalVolume rest := by
          rw [Finset.sum_ite_eq, if_pos (Finset.mem_range.mpr hb), ih hrest]
      _ = totalVolume (b :: rest) := by simp [totalVolume]

lemma binVolume_occupied (df : List Bar) (p : Bar → ℚ) (s : BinSpec) (k : ℕ)
    (h : binVolume df p s k ≠ 0) : ∃ b ∈ df, s.idx (p b) = k := by
  by_contra hc
  push_neg at hc
  apply h
  unfold binVolume
  rw [List.filter_eq_nil.mpr (fun b hb => by simpa using hc b hb)]
  rfl

lemma mkBinSpec_of_ne (xs : List ℚ) (n : ℕ) (h : minQ xs ≠ maxQ xs) :
    mkBinSpec xs n = ⟨n, minQ xs, minQ xs - (maxQ xs - minQ xs) / 1000,
      (maxQ xs - minQ xs) / (n : ℚ)⟩ := by
  unfold mkBinSpec
  rw [if_neg h]

lemma mkBinSpec_of_eq (xs : List ℚ) (n : ℕ) (h : minQ xs = maxQ xs) :
    mkBinSpec xs n = ⟨n, minQ xs - (if minQ xs = 0 then 1 / 1000 else |minQ xs| / 1000),
      minQ xs - (if minQ xs = 0 then 1 / 1000 else |minQ xs| / 1000),
      2 * (if minQ xs = 0 then 1 / 1000 else |minQ xs| / 1000) / (n : ℚ)⟩ := by
  unfold mkBinSpec
  rw [if_pos h]

lemma mkBinSpec_n (xs : List ℚ) (n : ℕ) : (mkBinSpec xs n).n = n := by
  by_cases h : minQ xs = maxQ xs
  · rw [mkBinSpec_of_eq xs n h]
  · rw [mkBinSpec_of_ne xs n h]

lemma mkBinSpec_width_pos (xs : List ℚ) (n : ℕ) (hxs : xs ≠ []) (hn : 0 < n) :
    0 < (mkBinSpec xs n).width := by
  have hnq : (0 : ℚ) < (n : ℚ) := by exact_mod_cast hn
  by_cases h : minQ xs = maxQ xs
  · rw [mkBinSpec_of_eq xs n h]
    show 0 < 2 * (if minQ xs = 0 then (1 : ℚ) / 1000 else |minQ xs| / 1000) / (n : ℚ)
    apply div_pos _ hnq
    by_cases h0 : minQ xs = 0
    · rw [if_pos h0]
      norm_num
    · rw [if_neg h0]
      have := abs_pos.mpr h0
      linarith
  · rw [mkBinSpec_of_ne xs n h]
    show 0 < (maxQ xs - minQ xs) / (n : ℚ)
    have hlt : minQ xs < maxQ xs := lt_of_le_of_ne (minQ_le_maxQ xs hxs) h
    exact div_pos (by linarith) hnq

lemma mkBinSpec_firstLeft_le_lo (xs : List ℚ) (n : ℕ) (hxs : xs ≠ []) :
    (mkBinSpec xs n).firstLeft ≤ (mkBinSpec xs n).lo := by
  by_cases h : minQ xs = maxQ xs
  · rw [mkBinSpec_of_eq xs n h]
  · rw [mkBinSpec_of_ne xs n h]
    show minQ xs - (maxQ xs - minQ xs) / 1000 ≤ minQ xs
    have hlt : minQ xs < maxQ xs := lt_of_le_of_ne (minQ_le_maxQ xs hxs) h
    linarith

lemma leftEdge_le_of_le (s : BinSpec) (hw : 0 < s.width) (hfl : s.firstLeft ≤ s.lo)
    {j k : ℕ} (hjk : j ≤ k) : s.leftEdge j ≤ s.leftEdge k := by
  unfold BinSpec.leftEdge
  by_cases hj : j = 0
  · rw [if_pos hj]
    by_cases hk : k = 0
    · rw [if_pos hk]
    · rw [if_neg hk]
      have hk1 : (1 : ℚ) ≤ (k : ℚ) := by exact_mod_cast Nat.one_le_iff_ne_zero.mpr hk
      nlinarith
  · have hk : k ≠ 0 := fun h => hj (Nat.le_zero.mp (h ▸ hjk))
    rw [if_neg hj, if_neg hk]
    have : (j : ℚ) ≤ (k : ℚ) := by exact_mod_cast hjk
    nlinarith

lemma rightEdge_le_of_le (s : BinSpec) (hw : 0 < s.width)
    {j k : ℕ} (hjk : j ≤ k) : s.rightEdge j ≤ s.rightEdge k := by
  unfold BinSpec.rightEdge
  have : (j : ℚ) ≤ (k : ℚ) := by exact_mod_cast hjk
  nlinarith

lemma leftEdge_lt_rightEdge (s : BinSpec) (hw : 0 < s.width)
    (hfl : s.firstLeft ≤ s.lo) (k : ℕ) : s.leftEdge k < s.rightEdge k := by
  unfold BinSpec.leftEdge BinSpec.rightEdge
  by_cases hk : k = 0
  · rw [if_pos hk, hk]
    push_cast
    linarith
  · rw [if_neg hk]
    nlinarith

lemma leftEdge_lt_midpoint (s : BinSpec) (hw : 0 < s.width)
    (hfl : s.firstLeft ≤ s.lo) (k : ℕ) : s.leftEdge k < s.midpoint k := by
  have := leftEdge_lt_rightEdge s hw hfl k
  unfold BinSpec.midpoint
  linarith

lemma midpoint_lt_rightEdge (s : BinSpec) (hw : 0 < s.width)
    (hfl : s.firstLeft ≤ s.lo) (k : ℕ) : s.midpoint k < s.rightEdge k := by
  have := leftEdge_lt_rightEdge s hw hfl k
  unfold BinSpec.midpoint
  linarith

lemma mkBinSpec_idx_lt (xs : List ℚ) (n : ℕ) (hxs : xs ≠ []) (hn : 0 < n)
    (x : ℚ) (hx : x ∈ xs) : (mkBinSpec xs n).idx x < n := by
  have hw : 0 < (mkBinSpec xs n).width := mkBinSpec_width_pos xs n hxs hn
  have hnq : ((n : ℚ)) ≠ 0 := by
    have : (0 : ℚ) < (n : ℚ) := by exact_mod_cast hn
    exact ne_of_gt this
  have hub : x ≤ (mkBinSpec xs n).lo + (n : ℚ) * (mkBinSpec xs n).width := by
    by_cases h : minQ xs = maxQ xs
    · rw [mkBinSpec_of_eq xs n h]
      show x ≤ (minQ xs - (if minQ xs = 0 then (1 : ℚ) / 1000 else |minQ xs| / 1000))
        + (n : ℚ) * (2 * (if minQ xs = 0 then (1 : ℚ) / 1000 else |minQ xs| / 1000) / (n : ℚ))
      have hcancel : (n : ℚ) * (2 * (if minQ xs = 0 then (1 : ℚ) / 1000 else |minQ xs| / 1000) / (n : ℚ))
          = 2 * (if minQ xs = 0 then (1 : ℚ) / 1000 else |minQ xs| / 1000) := by
        field_simp
        split <;> ring
      rw [hcancel]
      have hx' : x = minQ xs := mem_eq_of_minQ_eq_maxQ xs x hx h
      have hd : 0 ≤ (if minQ xs = 0 then (1 : ℚ) / 1000 else |minQ xs| / 1000) := by
        by_cases h0 : minQ xs = 0
        · rw [if_pos h0]
          norm_num
        · rw [if_neg h0]
          positivity
      linarith [hx'.le, hx'.ge]
    · rw [mkBinSpec_of_ne xs n h]
      show x ≤ minQ xs + (n : ℚ) * ((maxQ xs - minQ xs) / (n : ℚ))
      have hcancel : (n : ℚ) * ((maxQ xs - minQ xs) / (n : ℚ)) = maxQ xs - minQ xs := by
        field_simp
      rw [hcancel]
      have := mem_le_maxQ xs x hx
      linarith
  unfold BinSpec.idx
  rw [Int.toNat_lt' (Nat.pos_iff_ne_zero.mp hn)]
  have hceil : ⌈(x - (mkBinSpec xs n).lo) / (mkBinSpec xs n).width⌉ ≤ (n : ℤ) := by
    apply Int.ceil_le.mpr
    push_cast
    rw [div_le_iff hw]
    linarith
  omega

lemma mkBinSpec_midpoint_mem (xs : List ℚ) (hne : minQ xs ≠ maxQ xs)
    (k : ℕ) (hk : k < 50) :
    minQ xs ≤ (mkBinSpec xs 50).midpoint k ∧
      (mkBinSpec xs 50).midpoint k ≤ maxQ xs := by
  have hxs : xs ≠ [] := by
    intro hnil
    rw [hnil] at hne
    exact hne rfl
  have hlt : minQ xs < maxQ xs := lt_of_le_of_ne (minQ_le_maxQ xs hxs) hne
  rw [mkBinSpec_of_ne xs 50 hne]
  unfold BinSpec.midpoint BinSpec.leftEdge BinSpec.rightEdge
  dsimp only
  set d := maxQ xs - minQ xs with hd
  have hdpos : 0 < d := by rw [hd]; linarith
  by_cases hk0 : k = 0
  · rw [if_pos hk0, hk0]
    push_cast
    constructor
    · nlinarith
    · nlinarith
  · rw [if_neg hk0]
    have hk1 : (1 : ℚ) ≤ (k : ℚ) := by exact_mod_cast Nat.one_le_iff_ne_zero.mpr hk0
    have hk49 : (k : ℚ) ≤ 49 := by exact_mod_cast Nat.lt_succ_iff.mp hk
    constructor
    · nlinarith
    · nlinarith

lemma firstMax_mem (l : List (ℕ × ℚ)) (y : ℕ × ℚ) (h : firstMax l = some y) :
    y ∈ l := by
  cases l with
  | nil => cases h
  | cons x xs =>
    have : firstMaxPair x xs = y := by
      have h' : some (firstMaxPair x xs) = some y := h
      exact Option.some.inj h'
    rw [← this]
    exact firstMaxPair_mem x xs

lemma firstMax_ge (l : List (ℕ × ℚ)) (y : ℕ × ℚ) (h : firstMax l = some y) :
    ∀ p ∈ l, p.2 ≤ y.2 := by
  cases l with
  | nil => intro p hp; cases hp
  | cons x xs =>
    have : firstMaxPair x xs = y := by
      have h' : some (firstMaxPair x xs) = some y := h
      exact Option.some.inj h'
    rw [← this]
    exact firstMaxPair_ge x xs

lemma vpGrouped_mem (df : List Bar) (bins : ℕ) (p : ℕ × ℚ)
    (hp : p ∈ vpGrouped df bins) :
    p.1 < bins ∧ p = (p.1, binVolume df Bar.mid (vpSpec df bins) p.1) := by
  obtain ⟨k, hk, rfl⟩ := List.mem_map.mp hp
  exact ⟨List.mem_range.mp hk, rfl⟩

lemma vpGrouped_ne_nil (df : List Bar) : vpGrouped df 50 ≠ [] := by
  unfold vpGrouped
  simp [List.range_succ]

lemma vpTotal_eq_totalVolume (df : List Bar) (hdf : df ≠ []) :
    vpTotal df 50 = totalVolume df := by
  have hmidsne : df.map Bar.mid ≠ [] := by simpa using hdf
  unfold vpTotal vpGrouped
  rw [List.map_map]
  have : (Prod.snd ∘ fun k => (k, binVolume df Bar.mid (vpSpec df 50) k))
      = fun k => binVolume df Bar.mid (vpSpec df 50) k := rfl
  rw [this, list_range_map_sum]
  exact binVolume_partition df Bar.mid (vpSpec df 50) 50
    (fun b hb => mkBinSpec_idx_lt (df.map Bar.mid) 50 hmidsne (by norm_num)
      (Bar.mid b) (List.mem_map_of_mem Bar.mid hb))

/-- Fixture: a non-degenerate two-bar session (mids 10 and 20, volumes 100
and 1) whose POC bin holds more than 70% of total volume, so the
`cumsum <= target` mask keeps no bin at all. -/
def dfVP1 : List Bar :=
  [⟨0, 0, 15, 5, 10, 100⟩, ⟨5, 0, 25, 15, 20, 1⟩]

/-- Fixture: a non-degenerate two-bar session (mids 10 and 20, volumes 50 and
51) on which the value-area selection is non-empty. -/
def dfVP2 : List Bar :=
  [⟨0, 0, 15, 5, 10, 50⟩, ⟨5, 0, 25, 15, 20, 51⟩]

/-- Fixture: a two-bar session (mids 10 and 20, volumes 100 and 2) with one
price bin holding more than 70% of total volume. -/
def dfC9 : List Bar :=
  [⟨0, 0, 15, 5, 10, 100⟩, ⟨5, 0, 25, 15, 20, 2⟩]

/-- Fixture: a two-bar session (mids 10 and 20) with two tied maximal bins
(volumes 5 and 5, total 10, value-area target 7). -/
def dfT : List Bar :=
  [⟨0, 0, 15, 5, 10, 5⟩, ⟨5, 0, 25, 15, 20, 5⟩]

/-- A volume-descending ordering of `dfT`'s 50 bins that places the *upper*
tied maximal bin first — one of the orders the unstable quicksort may
produce, while `idxmax` always names the lower tied bin. -/
def sT : List (ℕ × ℚ) :=
  (49, 5) :: (0, 5) :: (List.range 48).map (fun k => (k + 1, 0))

/-- `bins_calc = min(20, unique_prices - 1 if unique_prices > 1 else 1)` over
the pre-market frame's Close prices
(src/pages/2_pipeline_engine.py, lines 753–754). -/
def pmNb (df : List Bar) : ℕ :=
  let u := (df.map Bar.close).dedup.length
  min 20 (if 1 < u then u - 1 else 1)

/-- `pd.cut(df_pm['Close'], bins=bins_calc)` bin geometry. -/
def pmSpec (df : List Bar) : BinSpec := mkBinSpec (df.map Bar.close) (pmNb df)

/-- `volume_by_price = df_pm.groupby(price_bins)['Volume'].sum()` at one bin. -/
def pmBinVol (df : List Bar) (k : ℕ) : ℚ := binVolume df Bar.close (pmSpec df) k

/-- `volume_by_price` as an ascending list of `(bin position, volume)` pairs. -/
def pmGrouped (df : List Bar) : List (ℕ × ℚ) :=
  (List.range (pmNb df)).map (fun k => (k, pmBinVol df k))

/-- `poc_bin_index = volume_by_price.index.get_loc(volume_by_price.idxmax())`:
the position of the first maximal-volume bin. -/
def pmPocIdx (df : List Bar) : ℕ :=
  match firstMax (pmGrouped df) with
  | some y => y.1
  | none => 0

/-- `vol_up = volume_by_price.iloc[next_up_index] if next_up_index < len(...)
else 0`: the candidate volume one bin above the current range. -/
def candUp (vols : ℕ → ℚ) (nb : ℕ) (ai : ℕ) : ℚ :=
  if ai + 1 < nb then vols (ai + 1) else 0

/-- `vol_down = volume_by_price.iloc[next_down_index] if next_down_index >= 0
else 0`: the candidate volume one bin below the current range. -/
def candDown (vols : ℕ → ℚ) (vi : ℕ) : ℚ :=
  if vi = 0 then 0 else vols (vi - 1)

/-- The body of the value-area `while` loop
(src/pages/2_pipeline_engine.py, lines 768–776) on the state
`(pm_val_bin_index, pm_vah_bin_index, current_volume)`; `none` models the
`if vol_up == 0 and vol_down == 0: break` early exit. -/
def vaStep (vols : ℕ → ℚ) (nb : ℕ) (st : ℕ × ℕ × ℚ) : Option (ℕ × ℕ × ℚ) :=
  let up := candUp vols nb st.2.1
  let dn := candDown vols st.1
  if up = 0 ∧ dn = 0 then none
  else if dn < up then some (st.1, st.2.1 + 1, st.2.2 + up)
  else some (st.1 - 1, st.2.1, st.2.2 + dn)

/-- The value-area `while` loop, fuel-indexed; the guard is
`current_volume < target and (pm_val_bin_index > 0 or pm_vah_bin_index < len - 1)`. -/
def vaLoop (vols : ℕ → ℚ) (nb : ℕ) (target : ℚ) : ℕ → ℕ × ℕ × ℚ → ℕ × ℕ × ℚ
  | 0, st => st
  | fuel + 1, st =>
    if st.2.2 < target ∧ (0 < st.1 ∨ st.2.1 < nb - 1) then
      match vaStep vols nb st with
      | none => st
      | some st' => vaLoop vols nb target fuel st'
    else st

/-- The final `(pm_val_bin_index, pm_vah_bin_index, current_volume)` state:
the loop starts from the POC bin with its own volume and runs to completion
(`pmNb df` fuel strictly exceeds the largest possible number of iterations). -/
def pmVAState (df : List Bar) : ℕ × ℕ × ℚ :=
  vaLoop (pmBinVol df) (pmNb df) (totalVolume df * (7 / 10)) (pmNb df)
    (pmPocIdx df, pmPocIdx df, pmBinVol df (pmPocIdx df))

/-- The POC/VAH/VAL part of `process_premarket_bars_to_summary`
(src/pages/2_pipeline_engine.py, lines 744–779), as `(poc, vah, val)`:
defaults are `pm_poc = pm_close` (the live price), `pm_vah = pm_high`,
`pm_val = pm_low`; when total volume is positive and there are at least 2
bars, POC is the midpoint of the maximal Close-price bin and VAH/VAL are the
right/left edges of the bins reached by the value-area expansion. -/
def pmProfile (df : List Bar) (live : ℚ) : ℚ × ℚ × ℚ :=
  if 0 < totalVolume df ∧ 1 < df.length then
    if 0 < pmNb df then
      ((pmSpec df).midpoint (pmPocIdx df),
        (pmSpec df).rightEdge (pmVAState df).2.1,
        (pmSpec df).leftEdge (pmVAState df).1)
    else (live, maxHigh df, minLow df)
  else (live, maxHigh df, minLow df)

/-- `Σ_{k ∈ [vi..ai]} vols k`: the summed volume of the contiguous bin range
currently included in the value area. -/
def rangeVol (vols : ℕ → ℚ) (vi ai : ℕ) : ℚ := ∑ k in Finset.Icc vi ai, vols k

/-- Fixture bin volumes `[5, 10, 5]` for the tie-break analysis. -/
def vols3 : ℕ → ℚ := fun k => ([5, 10, 5] : List ℚ).getD k 0

/-- Fixture: a single-bar session (open 1, high 3, low 1, close 2, volume 5). -/
def dfPM1 : List Bar := [⟨0, 1, 3, 1, 2, 5⟩]

/-- Fixture: a three-bar pre-market session with closes 10, 20, 30 and
volumes 30, 40, 30 (two Close bins, the lower one holding 70 of 100). -/
def dfPM3 : List Bar :=
  [⟨0, 0, 12, 8, 10, 30⟩, ⟨5, 0, 22, 18, 20, 40⟩, ⟨10, 0, 32, 28, 30, 30⟩]

/-- The structured content of the opening-range narrative strings produced by
`calculate_opening_range` (formatting of times into the text is elided; the
`Option ℚ` payloads are the `time_broke_*` values, `none` standing for
`pd.NaT`). -/
inductive ORNarrative where
  | noData
  | noOpeningRangeData
  | marketClosedAfterOR
  | balance
  | brokeHighOnly (t : Option ℚ)
  | brokeLowOnly (t : Option ℚ)
  | bothIncomplete
  | bothLowFirst (tl th : ℚ)
  | bothHighFirst (th tl : ℚ)
  | empty
deriving DecidableEq, Repr

/-- `series.min()` when the series may be empty: `none` models `pd.NaT`. -/
def minQOpt : List ℚ → Option ℚ
  | [] => none
  | x :: xs => some (xs.foldl min x)

/-- `calculate_opening_range` (src/pages/1_processor.py, lines 127–173):
returns `((orh, orl), narrative)`, with `none` in place of the `(nan, nan)`
pairs of the no-data returns.  The opening-range window is
`Datetime < df['Datetime'].min() + minutes`. -/
def calculate_opening_range (df : List Bar) (minutes : ℚ) :
    Option (ℚ × ℚ) × ORNarrative :=
  if df = [] then (none, .noData)
  else
    let end_time := minDatetime df + minutes
    let opening_range_df := df.filter (fun b => decide (b.datetime < end_time))
    if opening_range_df = [] then (none, .noOpeningRangeData)
    else
      let orl := minLow opening_range_df
      let orh := maxHigh opening_range_df
      let rest_of_day_df := df.filter (fun b => !decide (b.datetime < end_time))
      if rest_of_day_df = [] then (some (orh, orl), .marketClosedAfterOR)
      else
        let broke_low := minLow rest_of_day_df < orl
        let broke_high := maxHigh rest_of_day_df > orh
        let time_broke_low :=
          minQOpt ((rest_of_day_df.filter (fun b => decide (b.low < orl))).map Bar.datetime)
        let time_broke_high :=
          minQOpt ((rest_of_day_df.filter (fun b => decide (b.high > orh))).map Bar.datetime)
        let narrative : ORNarrative :=
          if ¬ broke_low ∧ ¬ broke_high then .balance
          else if broke_high ∧ ¬ broke_low then .brokeHighOnly time_broke_high
          else if ¬ broke_high ∧ broke_low then .brokeLowOnly time_broke_low
          else if broke_high ∧ broke_low then
            match time_broke_low, time_broke_high with
            | some tl, some th =>
              if tl < th then .bothLowFirst tl th else .bothHighFirst th tl
            | _, _ => .bothIncomplete
          else .empty
        (some (orh, orl), narrative)

/-- One key-volume event: the bar's time, close price and volume plus the
context labels (`action_parts`); the final f-string formatting is elided. -/
structure KeyEvent where
  time : ℚ
  price : ℚ
  vol : ℚ
  actions : List String
deriving DecidableEq, Repr

/-- The `action_parts` context labels for one bar, given the session extremes
`hod = df['High'].max()` and `lod = df['Low'].min()`. -/
def actionParts (hod lod : ℚ) (b : Bar) : List String :=
  (if b.high ≥ hod then ["Set High-of-Day"] else []) ++
    (if b.low ≤ lod then ["Set Low-of-Day"] else []) ++
    [if b.close > b.opn then "Strong Up-Bar"
      else if b.close < b.opn then "Strong Down-Bar"
      else "Neutral Bar"]

/-- One row of the output of `find_key_volume_events`. -/
def mkKeyEvent (hod lod : ℚ) (b : Bar) : KeyEvent :=
  ⟨b.datetime, b.close, b.volume, actionParts hod lod b⟩

/-- `find_key_volume_events` (src/pages/1_processor.py, lines 175–209):
the top `count` bars by volume, each with its context labels.  `S` is the
output of `df.sort_values(by='Volume', ascending=False)`: pandas guarantees a
volume-descending permutation of the session but, with the default unstable
quicksort, no particular order among equal volumes, so it is a parameter and
the theorems quantify over every admissible value. -/
def find_key_volume_events (df : List Bar) (count : ℕ) (S : List Bar) : List KeyEvent :=
  if df = [] then []
  else (S.take count).map (mkKeyEvent (maxHigh df) (minLow df))

/-- The 1000-volume bar of the key-volume fixture: it sets the session low
(9), does not set the session high, and closes (10) below its open (11). -/
def bKV : Bar := ⟨10, 11, 23 / 2, 9, 10, 1000⟩

/-- Fixture: three bars with volumes `[10, 10, 1000]`. -/
def dfKV : List Bar :=
  [⟨0, 10, 12, 10, 11, 10⟩, ⟨5, 11, 13, 21 / 2, 12, 10⟩, bKV]

/-- One admissible volume-descending ordering of `dfKV`. -/
def sKV : List Bar :=
  [bKV, ⟨0, 10, 12, 10, 11, 10⟩, ⟨5, 11, 13, 21 / 2, 12, 10⟩]

/-- Fixture: two bars tied at volume 7, in chronological order. -/
def dfC7 : List Bar := [⟨0, 1, 2, 1, 1, 7⟩, ⟨5, 1, 2, 1, 1, 7⟩]

/-- An admissible volume-descending ordering of `dfC7` that reverses the
chronological order of the tied bars. -/
def sC7 : List Bar := [⟨5, 1, 2, 1, 1, 7⟩, ⟨0, 1, 2, 1, 1, 7⟩]

/-- `a > b` on series entries where either side may be `NaN` (`none`):
pandas comparisons against `NaN` evaluate to `False`. -/
def gtO : Option ℚ → Option ℚ → Bool
  | some a, some b => decide (b < a)
  | _, _ => false

/-- `a < b` with the same `NaN` semantics. -/
def ltO : Option ℚ → Option ℚ → Bool
  | some a, some b => decide (a < b)
  | _, _ => false

/-- The crossing count of `get_vwap_interaction`:
`((close > vwap) & (close.shift(1) < vwap)) | ((close < vwap) &
(close.shift(1) > vwap))`, summed; `prev` carries the shifted close
(`none` on the first row, where `shift(1)` is `NaN`).  Both the current and
the previous close are compared against the *current* row's VWAP. -/
def countCrosses : Option ℚ → List Bar → List (Option ℚ) → ℕ
  | _, [], _ => 0
  | _, _ :: _, [] => 0
  | prev, b :: bs, w :: ws =>
    (if (gtO (some b.close) w && ltO prev w) || (ltO (some b.close) w && gtO prev w)
      then 1 else 0) + countCrosses (some b.close) bs ws

/-- `(df['Low'] > vwap_series).all()` with pandas `NaN` semantics. -/
def allLowsAbove (df : List Bar) (vwap : List (Option ℚ)) : Bool :=
  (List.zip df vwap).all (fun p => gtO (some p.1.low) p.2)

/-- `(df['High'] < vwap_series).all()` with pandas `NaN` semantics. -/
def allHighsBelow (df : List Bar) (vwap : List (Option ℚ)) : Bool :=
  (List.zip df vwap).all (fun p => ltO (some p.1.high) p.2)

/-- `get_vwap_interaction` (src/pages/1_processor.py, lines 211–226). -/
def get_vwap_interaction (df : List Bar) (vwap : List (Option ℚ)) : String :=
  if df = [] ∨ vwap.all Option.isNone then "N/A"
  else if 4 < countCrosses none df vwap then "Crossed multiple times"
  else if allLowsAbove df vwap then "Support"
  else if allHighsBelow df vwap then "Resistance"
  else "Mixed (acted as both support and resistance)"

/-- Fixture: seven rows whose Low column (1) stays strictly above the VWAP
series (constantly 1/3: the first row has typical price 1/3 and volume 1, all
later rows have volume 0) while the Close column oscillates 0,1,0,1,0,1,0
across it, producing 6 crossings.  The rows are raw DataFrame rows, not
OHLC-consistent bars (`Low > High`), which nothing in the code checks. -/
def df8 : List Bar :=
  [⟨0, 0, 0, 1, 0, 1⟩, ⟨1, 1, 2, 1, 1, 0⟩, ⟨2, 1, 2, 1, 0, 0⟩,
    ⟨3, 1, 2, 1, 1, 0⟩, ⟨4, 1, 2, 1, 0, 0⟩, ⟨5, 1, 2, 1, 1, 0⟩,
    ⟨6, 1, 2, 1, 0, 0⟩]

/-- Fixture: a single row whose Low (1) is strictly above its VWAP (1/3). -/
def df8w : List Bar := [⟨0, 0, 0, 1, 0, 1⟩]

-- ### THEOREMS ###

/-- C5: for every session with total volume > 0, the VWAP series value at each
index `i` equals the cumulative sum over bars `0..i` of `typical_price·volume`
divided by the cumulative sum of volume over bars `0..i` (the `NaN` sentinel
where the cumulative volume is zero), and in particular the final VWAP value
equals `Σ(typical_price·volume)/Σ(volume)` over the whole session. -/
theorem vwap_prefix_identity (df : List Bar)
    (hv : ∀ b ∈ df, 0 ≤ b.volume) (ht : 0 < totalVolume df) :
    (calculate_vwap df).length = df.length ∧
    (∀ i, i < df.length →
      (calculate_vwap df).getD i none =
        if 0 < prefixVol df i then some (prefixTPV df i / prefixVol df i)
        else none) ∧
    (calculate_vwap df).getD (df.length - 1) none =
      some (((df.map fun b => b.tp * b.volume).sum) / totalVolume df) := by
  have hne : totalVolume df ≠ 0 := ne_of_gt ht
  have hmain : ∀ i, i < df.length →
      (calculate_vwap df).getD i none =
        if 0 < prefixVol df i then some (prefixTPV df i / prefixVol df i)
        else none := by
    intro i hi
    unfold calculate_vwap
    rw [if_neg hne]
    rw [zipWith_getD_none _ _ _ i (by simpa [cumsum_length] using hi)
      (by simpa [cumsum_length] using hi)]
    rw [cumsum_getD _ _ _ (by simpa using hi), cumsum_getD _ _ _ (by simpa using hi)]
    have hA : (List.take (i + 1) (List.map Bar.volume df)).sum = prefixVol df i := by
      rw [← List.map_take]; rfl
    have hB : (List.take (i + 1) (List.map (fun b => b.tp * b.volume) df)).sum
        = prefixTPV df i := by
      rw [← List.map_take]; rfl
    simp only [zero_add, hA, hB]
    have hv' : 0 ≤ prefixVol df i := by
      unfold prefixVol
      apply List.sum_nonneg
      intro x hx
      obtain ⟨b, hb, rfl⟩ := List.mem_map.mp hx
      exact hv b (List.mem_of_mem_take hb)
    by_cases hz : prefixVol df i = 0
    · have hnp : ¬ 0 < prefixVol df i := by rw [hz]; exact lt_irrefl 0
      simp [hz, hnp]
    · have hpos : 0 < prefixVol df i := lt_of_le_of_ne hv' (fun h => hz h.symm)
      simp [hz, hpos]
  refine ⟨calculate_vwap_length df, hmain, ?_⟩
  have hlen : 0 < df.length := by
    rcases df with _ | ⟨b, bs⟩
    · simp [totalVolume] at ht
    · simp
  have hi : df.length - 1 < df.length := Nat.sub_lt hlen Nat.one_pos
  rw [hmain (df.length - 1) hi]
  have htake : df.take (df.length - 1 + 1) = df := by
    rw [Nat.sub_add_cancel hlen]
    exact List.take_length df
  have hpv : prefixVol df (df.length - 1) = totalVolume df := by
    unfold prefixVol totalVolume
    rw [htake]
  have hpt : prefixTPV df (df.length - 1) = (df.map fun b => b.tp * b.volume).sum := by
    unfold prefixTPV
    rw [htake]
  rw [hpv, hpt, if_pos ht]

/-- Witness for C5 at a concrete two-bar session. -/
theorem vwap_prefix_identity_witness :
    (∀ b ∈ dfVW, 0 ≤ b.volume) ∧ 0 < totalVolume dfVW ∧
    (calculate_vwap dfVW).getD (dfVW.length - 1) none =
      some (((dfVW.map fun b => b.tp * b.volume).sum) / totalVolume dfVW) :=
  ⟨by with_unfolding_all decide, by with_unfolding_all decide,
    (vwap_prefix_identity dfVW (by with_unfolding_all decide)
      (by with_unfolding_all decide)).2.2⟩

lemma head_of_sorted_perm_unique_max (l S : List Bar) (x : Bar)
    (hS : S.Perm l) (hsorted : List.Pairwise (fun a b => b.volume ≤ a.volume) S)
    (hx : x ∈ l) (huniq : ∀ y ∈ l, y ≠ x → y.volume < x.volume) :
    ∃ t, S = x :: t := by
  cases S with
  | nil =>
    exfalso
    have hmem : x ∈ ([] : List Bar) := hS.mem_iff.mpr hx
    cases hmem
  | cons h t =>
    by_cases hhx : h = x
    · exact ⟨t, by rw [hhx]⟩
    · exfalso
      have hhl : h ∈ l := hS.mem_iff.mp (List.mem_cons_self h t)
      have hlt : h.volume < x.volume := huniq h hhl hhx
      have hxS : x ∈ h :: t := hS.mem_iff.mpr hx
      rcases List.mem_cons.mp hxS with rfl | hxt
      · exact hhx rfl
      · have hxh := (List.pairwise_cons.mp hsorted).1 x hxt
        linarith

/-- C1 (amended): over every admissible volume-descending ordering `S` of the
bins (pandas' unstable sort guarantees only sortedness and permutation),
whenever `calculate_volume_profile` returns values on a session of
non-negative volumes, POC lies within `[min(mid), max(mid)]` of the
session's mid-prices and VAL < VAH; and VAL ≤ POC ≤ VAH holds whenever the
POC (first-maximal) bin belongs to the value-area selection — in particular
whenever the maximal bin volume is uniquely attained. -/
theorem volume_profile_value_area_order (df : List Bar) (S : List (ℕ × ℚ))
    (poc vah val : ℚ)
    (hv : ∀ b ∈ df, 0 ≤ b.volume)
    (hS : S.Perm (vpGrouped df 50))
    (hsorted : List.Pairwise (fun a b : ℕ × ℚ => b.2 ≤ a.2) S)
    (hok : calculate_volume_profile df 50 S = .ok (poc, vah, val)) :
    (minQ (df.map Bar.mid) ≤ poc ∧ poc ≤ maxQ (df.map Bar.mid)) ∧
      val < vah ∧
      (vpPocPair df 50 ∈ vpVA df 50 S → val ≤ poc ∧ poc ≤ vah) ∧
      ((∀ p ∈ vpGrouped df 50, p ≠ vpPocPair df 50 → p.2 < (vpPocPair df 50).2) →
        val ≤ poc ∧ poc ≤ vah) := by
  unfold calculate_volume_profile at hok
  split at hok
  next => cases hok
  next hguard =>
    push_neg at hguard
    obtain ⟨hdf, htv⟩ := hguard
    split at hok
    next poc_bin v vs hfm hva =>
      have h3 := Except.ok.inj hok
      rw [Prod.mk.injEq, Prod.mk.injEq] at h3
      obtain ⟨hpoc, hvah, hval⟩ := h3
      subst hpoc
      subst hvah
      subst hval
      have hspec : vpSpec df 50 = mkBinSpec (df.map Bar.mid) 50 := rfl
      have hmidsne : df.map Bar.mid ≠ [] := by simpa using hdf
      have hw : 0 < (vpSpec df 50).width := by
        rw [hspec]
        exact mkBinSpec_width_pos _ 50 hmidsne (by norm_num)
      have hfl : (vpSpec df 50).firstLeft ≤ (vpSpec df 50).lo := by
        rw [hspec]
        exact mkBinSpec_firstLeft_le_lo _ 50 hmidsne
      have hpp : vpPocPair df 50 = poc_bin := by
        unfold vpPocPair
        rw [hfm]
      have hpocmem : poc_bin ∈ vpGrouped df 50 := firstMax_mem _ _ hfm
      have hy1lt : poc_bin.1 < 50 := (vpGrouped_mem df 50 poc_bin hpocmem).1
      have hy2 : poc_bin.2 = binVolume df Bar.mid (vpSpec df 50) poc_bin.1 :=
        congrArg Prod.snd (vpGrouped_mem df 50 poc_bin hpocmem).2
      have hnnS : ∀ p ∈ S, 0 ≤ p.2 := by
        intro p hp
        have hp' : p ∈ vpGrouped df 50 := hS.mem_iff.mp hp
        obtain ⟨hlt, hpair⟩ := vpGrouped_mem df 50 p hp'
        rw [hpair]
        exact binVolume_nonneg df Bar.mid (vpSpec df 50) p.1 hv
      have hSne : S ≠ [] := by
        intro hnil
        rw [hnil] at hva
        simp [vpVA, maskCumLE] at hva
      obtain ⟨s0, srest, hS0⟩ : ∃ s0 srest, S = s0 :: srest := by
        cases S with
        | nil => exact absurd rfl hSne
        | cons a l => exact ⟨a, l, rfl⟩
      have hnnS0 : ∀ p ∈ s0 :: srest, 0 ≤ p.2 := by
        rw [← hS0]
        exact hnnS
      have hvane : vpVA df 50 S ≠ [] := by
        rw [hva]
        exact List.cons_ne_nil v vs
      obtain ⟨hle0, hmaskeq⟩ :=
        maskCumLE_cons_of_ne_nil (vpTotal df 50 * (7 / 10)) 0 s0 srest hnnS0
          (by rw [← hS0]; exact hvane)
      have hv_eq_s0 : v = s0 := by
        have h' : vpVA df 50 S
            = s0 :: maskCumLE (vpTotal df 50 * (7 / 10)) (0 + s0.2) srest := by
          show maskCumLE (vpTotal df 50 * (7 / 10)) 0 S = _
          rw [hS0]
          exact hmaskeq
        rw [hva] at h'
        exact (List.cons.inj h').1
      have hs0max : ∀ p ∈ S, p.2 ≤ s0.2 := by
        intro p hp
        rw [hS0] at hp
        rcases List.mem_cons.mp hp with rfl | hp'
        · exact le_refl _
        · have hsorted' := hsorted
          rw [hS0] at hsorted'
          exact (List.pairwise_cons.mp hsorted').1 p hp'
      have hs0grouped : s0 ∈ vpGrouped df 50 := by
        apply hS.mem_iff.mp
        rw [hS0]
        exact List.mem_cons_self s0 srest
      have hsle : s0.2 ≤ poc_bin.2 := firstMax_ge _ _ hfm s0 hs0grouped
      have hpl : poc_bin.2 ≤ s0.2 := hs0max poc_bin (hS.mem_iff.mpr hpocmem)
      have hpocle : poc_bin.2 ≤ vpTotal df 50 * (7 / 10) := by linarith [hle0]
      have htvpos : 0 < totalVolume df := by
        have h0 : 0 ≤ totalVolume df := by
          apply List.sum_nonneg
          intro x hx
          obtain ⟨b, hb, rfl⟩ := List.mem_map.mp hx
          exact hv b hb
        exact lt_of_le_of_ne h0 (Ne.symm htv)
      have hvt : vpTotal df 50 = totalVolume df := vpTotal_eq_totalVolume df hdf
      have hle7 : poc_bin.2 ≤ totalVolume df * (7 / 10) := by
        rw [← hvt]
        exact hpocle
      have hcov : ∀ b ∈ df, (vpSpec df 50).idx (Bar.mid b) < 50 := fun b hb =>
        mkBinSpec_idx_lt _ 50 hmidsne (by norm_num) _ (List.mem_map_of_mem Bar.mid hb)
      have hpart : ∑ k in Finset.range 50,
          binVolume df Bar.mid (vpSpec df 50) k = totalVolume df :=
        binVolume_partition df Bar.mid (vpSpec df 50) 50 hcov
      have hmem50 : poc_bin.1 ∈ Finset.range 50 := Finset.mem_range.mpr hy1lt
      have hsplit := Finset.add_sum_erase (Finset.range 50)
        (binVolume df Bar.mid (vpSpec df 50)) hmem50
      have herasepos : 0 < ∑ k in (Finset.range 50).erase poc_bin.1,
          binVolume df Bar.mid (vpSpec df 50) k := by
        rw [hpart] at hsplit
        rw [← hy2] at hsplit
        nlinarith [htvpos, hle7, hsplit]
      obtain ⟨k', hk'mem, hk'pos⟩ : ∃ k' ∈ (Finset.range 50).erase poc_bin.1,
          0 < binVolume df Bar.mid (vpSpec df 50) k' := by
        by_contra hc
        push_neg at hc
        have hle0' : ∑ k in (Finset.range 50).erase poc_bin.1,
            binVolume df Bar.mid (vpSpec df 50) k ≤ 0 := Finset.sum_nonpos hc
        linarith
      obtain ⟨b2, hb2, hb2idx⟩ :=
        binVolume_occupied df Bar.mid (vpSpec df 50) k' (ne_of_gt hk'pos)
      have hk'lt : k' < 50 := Finset.mem_range.mp (Finset.mem_erase.mp hk'mem).2
      have hk'grouped : (k', binVolume df Bar.mid (vpSpec df 50) k') ∈ vpGrouped df 50 := by
        unfold vpGrouped
        exact List.mem_map_of_mem _ (List.mem_range.mpr hk'lt)
      have hpocvolpos : 0 < binVolume df Bar.mid (vpSpec df 50) poc_bin.1 := by
        have hk'le := firstMax_ge _ _ hfm _ hk'grouped
        rw [hy2] at hk'le
        exact lt_of_lt_of_le hk'pos hk'le
      obtain ⟨b1, hb1, hb1idx⟩ :=
        binVolume_occupied df Bar.mid (vpSpec df 50) poc_bin.1 (ne_of_gt hpocvolpos)
      have hk'ne : k' ≠ poc_bin.1 := (Finset.mem_erase.mp hk'mem).1
      have hne : minQ (df.map Bar.mid) ≠ maxQ (df.map Bar.mid) := by
        intro heq
        apply hk'ne
        have h1 : Bar.mid b1 = minQ (df.map Bar.mid) :=
          mem_eq_of_minQ_eq_maxQ _ _ (List.mem_map_of_mem _ hb1) heq
        have h2 : Bar.mid b2 = minQ (df.map Bar.mid) :=
          mem_eq_of_minQ_eq_maxQ _ _ (List.mem_map_of_mem _ hb2) heq
        rw [← hb2idx, ← hb1idx, h1, h2]
      have hcont := mkBinSpec_midpoint_mem (df.map Bar.mid) hne poc_bin.1 hy1lt
      have hkminv : List.foldl min v.1 (vs.map Prod.fst) ≤ v.1 := foldl_min_le_init _ _
      have hkmaxv : v.1 ≤ List.foldl max v.1 (vs.map Prod.fst) := init_le_foldl_max _ _
      have hC : vpPocPair df 50 ∈ vpVA df 50 S →
          (vpSpec df 50).leftEdge (List.foldl min v.1 (vs.map Prod.fst))
              ≤ (vpSpec df 50).midpoint poc_bin.1 ∧
            (vpSpec df 50).midpoint poc_bin.1
              ≤ (vpSpec df 50).rightEdge (List.foldl max v.1 (vs.map Prod.fst)) := by
        intro hmem
        rw [hpp, hva] at hmem
        have hkmin : List.foldl min v.1 (vs.map Prod.fst) ≤ poc_bin.1 := by
          rcases List.mem_cons.mp hmem with heq | hmem'
          · rw [heq]
            exact hkminv
          · exact foldl_min_le_mem _ _ _ (List.mem_map_of_mem Prod.fst hmem')
        have hkmax : poc_bin.1 ≤ List.foldl max v.1 (vs.map Prod.fst) := by
          rcases List.mem_cons.mp hmem with heq | hmem'
          · rw [heq]
            exact hkmaxv
          · exact mem_le_foldl_max _ _ _ (List.mem_map_of_mem Prod.fst hmem')
        exact ⟨le_trans (leftEdge_le_of_le _ hw hfl hkmin)
            (leftEdge_lt_midpoint _ hw hfl _).le,
          le_trans (midpoint_lt_rightEdge _ hw hfl _).le
            (rightEdge_le_of_le _ hw hkmax)⟩
      refine ⟨⟨hcont.1, hcont.2⟩, ?_, hC, ?_⟩
      · have hkk : List.foldl min v.1 (vs.map Prod.fst)
            ≤ List.foldl max v.1 (vs.map Prod.fst) := le_trans hkminv hkmaxv
        exact lt_of_le_of_lt (leftEdge_le_of_le _ hw hfl hkk)
          (leftEdge_lt_rightEdge _ hw hfl _)
      · intro huniq
        rw [hpp] at huniq
        apply hC
        rw [hpp]
        have hs0poc : s0 = poc_bin := by
          by_contra hne0
          have hlt' := huniq s0 hs0grouped hne0
          linarith
        rw [hva, hv_eq_s0, hs0poc]
        exact List.mem_cons_self _ _
    next => cases hok

set_option maxRecDepth 10000 in
/-- C1 counterexample: two failures of the claim as stated, each under an
ordering the program's unstable sort may produce.  (i) On a non-degenerate
2-bar session with volumes 100 and 1 the value-area mask keeps no bin, so no
values are returned at all (the Python code raises on
`value_area_bins.index.min().left`).  (ii) On a non-degenerate 2-bar session
with two tied maximal bins, an admissible ordering that places the upper tied
bin first makes the mask keep only that bin while `idxmax` names the lower
one, so the returned values violate VAL ≤ POC. -/
theorem volume_profile_value_area_counterexample :
    (2 ≤ dfVP1.length ∧ 0 < totalVolume dfVP1 ∧
      (oneDescSort (vpGrouped dfVP1 50)).Perm (vpGrouped dfVP1 50) ∧
      List.Pairwise (fun a b : ℕ × ℚ => b.2 ≤ a.2) (oneDescSort (vpGrouped dfVP1 50)) ∧
      calculate_volume_profile dfVP1 50 (oneDescSort (vpGrouped dfVP1 50)) =
        .error .emptyValueArea) ∧
    (2 ≤ dfT.length ∧ 0 < totalVolume dfT ∧
      sT.Perm (vpGrouped dfT 50) ∧
      List.Pairwise (fun a b : ℕ × ℚ => b.2 ≤ a.2) sT ∧
      calculate_volume_profile dfT 50 sT = .ok (2019 / 200, 20, 99 / 5) ∧
      ¬ ((99 : ℚ) / 5 ≤ 2019 / 200)) := by
  constructor
  · exact ⟨by with_unfolding_all decide, by with_unfolding_all decide,
      by with_unfolding_all decide, by with_unfolding_all decide,
      by with_unfolding_all rfl⟩
  · exact ⟨by with_unfolding_all decide, by with_unfolding_all decide,
      by with_unfolding_all decide, by with_unfolding_all decide,
      by with_unfolding_all rfl, by with_unfolding_all decide⟩

set_option maxRecDepth 10000 in
/-- Witness for C1 at a concrete session with a unique maximal bin, under one
admissible volume-descending ordering. -/
theorem volume_profile_value_area_order_witness :
    calculate_volume_profile dfVP2 50 (oneDescSort (vpGrouped dfVP2 50)) =
        .ok (199 / 10, 20, 99 / 5) ∧
      (minQ (dfVP2.map Bar.mid) ≤ 199 / 10 ∧
        (199 : ℚ) / 10 ≤ maxQ (dfVP2.map Bar.mid)) ∧
      (99 : ℚ) / 5 < 20 ∧
      ((99 : ℚ) / 5 ≤ 199 / 10 ∧ (199 : ℚ) / 10 ≤ 20) := by
  have h := volume_profile_value_area_order dfVP2 (oneDescSort (vpGrouped dfVP2 50))
    (199 / 10) 20 (99 / 5)
    (by with_unfolding_all decide)
    (by with_unfolding_all decide)
    (by with_unfolding_all decide)
    (by with_unfolding_all rfl)
  exact ⟨by with_unfolding_all rfl, h.1, h.2.1, h.2.2.2 (by with_unfolding_all decide)⟩

set_option maxRecDepth 10000 in
/-- C9: on a session where a single price bin holds more than 70% of total
volume, `calculate_volume_profile` does not return a value or a sentinel —
under the exhibited (admissible) volume-descending ordering the value-area
mask keeps no bin, so the Python code's `value_area_bins.index.min()` is
`NaN` and the attribute access `.left` raises, contradicting the
never-raises policy.  (The failure is tie-order-invariant: any descending
ordering starts with the 100-volume bin, whose running total already exceeds
the 70% target.) -/
theorem volume_profile_raises_on_dominant_bin :
    0 < totalVolume dfC9 ∧
      (oneDescSort (vpGrouped dfC9 50)).Perm (vpGrouped dfC9 50) ∧
      List.Pairwise (fun a b : ℕ × ℚ => b.2 ≤ a.2) (oneDescSort (vpGrouped dfC9 50)) ∧
      calculate_volume_profile dfC9 50 (oneDescSort (vpGrouped dfC9 50)) =
        .error .emptyValueArea := by
  exact ⟨by with_unfolding_all decide, by with_unfolding_all decide,
    by with_unfolding_all decide, by with_unfolding_all rfl⟩

/-- C3 counterexample: with bin volumes `[5, 10, 5]` and the value area at the
middle bin, both candidate neighbors hold volume 5; the loop body takes the
`else` branch of `vol_up > vol_down` and extends the area downward to bin 0,
not upward to bin 2. -/
theorem va_tie_break_counterexample :
    candUp vols3 3 1 = candDown vols3 1 ∧ candUp vols3 3 1 ≠ 0 ∧
      vaStep vols3 3 (1, 1, 10) = some (0, 1, 15) ∧
      vaStep vols3 3 (1, 1, 10) ≠ some (1, 2, 15) := by
  refine ⟨?_, ?_, ?_, ?_⟩ <;> with_unfolding_all decide

/-- C3 (amended): at every expansion step where the candidate neighbor above
and the candidate neighbor below hold equal non-zero volume, the lower
(lower-price) neighbor is the one added to the value area — the comparison is
the strict `vol_up > vol_down`, so ties fall to the `else` branch. -/
theorem va_tie_break_goes_down (vols : ℕ → ℚ) (nb : ℕ) (st : ℕ × ℕ × ℚ)
    (heq : candUp vols nb st.2.1 = candDown vols st.1)
    (hne : candUp vols nb st.2.1 ≠ 0) :
    vaStep vols nb st = some (st.1 - 1, st.2.1, st.2.2 + candDown vols st.1) := by
  unfold vaStep
  rw [if_neg (by intro h; exact hne h.1)]
  rw [if_neg (by rw [heq]; exact lt_irrefl _)]

/-- Witness for C3 at the `[5, 10, 5]` fixture. -/
theorem va_tie_break_goes_down_witness :
    candUp vols3 3 1 = candDown vols3 1 ∧ candUp vols3 3 1 ≠ 0 ∧
      vaStep vols3 3 (1, 1, 10) = some (1 - 1, 1, 10 + candDown vols3 1) :=
  ⟨by with_unfolding_all decide, by with_unfolding_all decide,
    va_tie_break_goes_down vols3 3 (1, 1, 10) (by with_unfolding_all decide)
      (by with_unfolding_all decide)⟩

/-- C4 counterexample: on a one-bar session (open 1, high 3, low 1, close 2,
volume 5) with live price 2, the pre-market profile keeps its defaults
`(live, pm_high, pm_low) = (2, 3, 1)`; it does not return
POC = VAL = VAH = the lone close price. -/
theorem pm_profile_degenerate_counterexample :
    dfPM1.length < 2 ∧ pmProfile dfPM1 2 = (2, 3, 1) ∧
      pmProfile dfPM1 2 ≠ (2, 2, 2) := by
  refine ⟨?_, ?_, ?_⟩ <;> with_unfolding_all decide

/-- C4 (amended): for every session whose total volume is 0 or which has
fewer than 2 bars, the pre-market volume-profile computation returns the
defaults POC = the live (current) price, VAH = the session maximum high,
VAL = the session minimum low, without raising. -/
theorem pm_profile_degenerate (df : List Bar) (live : ℚ)
    (h : totalVolume df = 0 ∨ df.length < 2) :
    pmProfile df live = (live, maxHigh df, minLow df) := by
  unfold pmProfile
  rw [if_neg]
  intro hc
  rcases h with h | h
  · rw [h] at hc
    exact lt_irrefl 0 hc.1
  · omega

/-- Witness for C4 at the one-bar fixture. -/
theorem pm_profile_degenerate_witness :
    dfPM1.length < 2 ∧ pmProfile dfPM1 2 = (2, maxHigh dfPM1, minLow dfPM1) :=
  ⟨by with_unfolding_all decide,
    pm_profile_degenerate dfPM1 2 (Or.inr (by with_unfolding_all decide))⟩

lemma vaStep_eq (vols : ℕ → ℚ) (nb : ℕ) (st : ℕ × ℕ × ℚ) :
    vaStep vols nb st =
      if candUp vols nb st.2.1 = 0 ∧ candDown vols st.1 = 0 then none
      else if candDown vols st.1 < candUp vols nb st.2.1 then
        some (st.1, st.2.1 + 1, st.2.2 + candUp vols nb st.2.1)
      else some (st.1 - 1, st.2.1, st.2.2 + candDown vols st.1) := rfl

lemma candUp_nonneg (vols : ℕ → ℚ) (nb ai : ℕ) (hnn : ∀ k, 0 ≤ vols k) :
    0 ≤ candUp vols nb ai := by
  unfold candUp
  split
  · exact hnn _
  · exact le_refl 0

lemma candDown_nonneg (vols : ℕ → ℚ) (vi : ℕ) (hnn : ∀ k, 0 ≤ vols k) :
    0 ≤ candDown vols vi := by
  unfold candDown
  split
  · exact le_refl 0
  · exact hnn _

lemma rangeVol_self (vols : ℕ → ℚ) (k : ℕ) : rangeVol vols k k = vols k := by
  unfold rangeVol
  rw [Finset.Icc_self, Finset.sum_singleton]

lemma rangeVol_succ_top (vols : ℕ → ℚ) (vi ai : ℕ) (h : vi ≤ ai + 1) :
    rangeVol vols vi (ai + 1) = rangeVol vols vi ai + vols (ai + 1) := by
  unfold rangeVol
  exact Finset.sum_Icc_succ_top h _

lemma rangeVol_pred_left (vols : ℕ → ℚ) (vi ai : ℕ) (h1 : 1 ≤ vi) (h2 : vi ≤ ai) :
    rangeVol vols (vi - 1) ai = vols (vi - 1) + rangeVol vols vi ai := by
  unfold rangeVol
  have hset : Finset.Icc (vi - 1) ai = insert (vi - 1) (Finset.Icc vi ai) := by
    ext k
    simp only [Finset.mem_Icc, Finset.mem_insert]
    omega
  rw [hset, Finset.sum_insert (by simp only [Finset.mem_Icc]; omega)]

/-- The loop invariant of the value-area expansion: the range is well-formed
and `current_volume` is exactly the summed volume of the included bins. -/
def VAInv (vols : ℕ → ℚ) (nb : ℕ) (st : ℕ × ℕ × ℚ) : Prop :=
  st.1 ≤ st.2.1 ∧ st.2.1 < nb ∧ st.2.2 = rangeVol vols st.1 st.2.1

/-- The loop postcondition: the target volume was reached, or the early exit
fired (both candidate neighbor volumes zero), or the range grew to all bins. -/
def VAPost (vols : ℕ → ℚ) (nb : ℕ) (target : ℚ) (st : ℕ × ℕ × ℚ) : Prop :=
  target ≤ st.2.2 ∨
    (candUp vols nb st.2.1 = 0 ∧ candDown vols st.1 = 0) ∨
    (st.1 = 0 ∧ st.2.1 = nb - 1)

lemma vaLoop_post (vols : ℕ → ℚ) (nb : ℕ) (target : ℚ)
    (hnn : ∀ k, 0 ≤ vols k) :
    ∀ fuel st, st.1 + (nb - 1 - st.2.1) ≤ fuel → VAInv vols nb st →
      VAInv vols nb (vaLoop vols nb target fuel st) ∧
        VAPost vols nb target (vaLoop vols nb target fuel st) := by
  intro fuel
  induction fuel with
  | zero =>
    intro st hfuel hinv
    have hr : vaLoop vols nb target 0 st = st := rfl
    rw [hr]
    obtain ⟨h1, h2, h3⟩ := hinv
    refine ⟨⟨h1, h2, h3⟩, ?_⟩
    right; right
    omega
  | succ fuel ih =>
    intro st hfuel hinv
    obtain ⟨h1, h2, h3⟩ := hinv
    have hr : vaLoop vols nb target (fuel + 1) st =
        (if st.2.2 < target ∧ (0 < st.1 ∨ st.2.1 < nb - 1) then
          match vaStep vols nb st with
          | none => st
          | some st' => vaLoop vols nb target fuel st'
        else st) := rfl
    rw [hr]
    by_cases hg : st.2.2 < target ∧ (0 < st.1 ∨ st.2.1 < nb - 1)
    · rw [if_pos hg]
      rcases hstep : vaStep vols nb st with _ | st'
      · refine ⟨⟨h1, h2, h3⟩, ?_⟩
        rw [vaStep_eq] at hstep
        by_cases hz : candUp vols nb st.2.1 = 0 ∧ candDown vols st.1 = 0
        · exact Or.inr (Or.inl hz)
        · rw [if_neg hz] at hstep
          split at hstep <;> cases hstep
      · rw [vaStep_eq] at hstep
        by_cases hz : candUp vols nb st.2.1 = 0 ∧ candDown vols st.1 = 0
        · rw [if_pos hz] at hstep
          cases hstep
        · rw [if_neg hz] at hstep
          by_cases hud : candDown vols st.1 < candUp vols nb st.2.1
          · rw [if_pos hud] at hstep
            have hst' := Option.some.inj hstep
            subst hst'
            have hup_pos : 0 < candUp vols nb st.2.1 :=
              lt_of_le_of_lt (candDown_nonneg vols st.1 hnn) hud
            have hai : st.2.1 + 1 < nb := by
              by_contra hc
              have hz' : candUp vols nb st.2.1 = 0 := by
                unfold candUp
                rw [if_neg hc]
              rw [hz'] at hup_pos
              exact lt_irrefl 0 hup_pos
            have hupval : candUp vols nb st.2.1 = vols (st.2.1 + 1) := by
              unfold candUp
              rw [if_pos hai]
            have hinv' : VAInv vols nb (st.1, st.2.1 + 1, st.2.2 + candUp vols nb st.2.1) := by
              refine ⟨by dsimp only; omega, by dsimp only; omega, ?_⟩
              show st.2.2 + candUp vols nb st.2.1 = rangeVol vols st.1 (st.2.1 + 1)
              rw [hupval, rangeVol_succ_top vols st.1 st.2.1 (by omega), h3]
            have hmeas : (st.1, st.2.1 + 1, st.2.2 + candUp vols nb st.2.1).1
                + (nb - 1 - (st.1, st.2.1 + 1, st.2.2 + candUp vols nb st.2.1).2.1) ≤ fuel := by
              dsimp only
              omega
            exact ih _ hmeas hinv'
          · rw [if_neg hud] at hstep
            have hst' := Option.some.inj hstep
            subst hst'
            have hdn_pos : 0 < candDown vols st.1 := by
              rcases lt_or_eq_of_le (candDown_nonneg vols st.1 hnn) with h | h
              · exact h
              · exfalso
                apply hz
                have hup_le : candUp vols nb st.2.1 ≤ candDown vols st.1 := not_lt.mp hud
                have hup_nn : 0 ≤ candUp vols nb st.2.1 := candUp_nonneg vols nb st.2.1 hnn
                rw [← h] at hup_le
                exact ⟨le_antisymm hup_le hup_nn, h.symm⟩
            have hvi : 1 ≤ st.1 := by
              by_contra hc
              have hvi0 : st.1 = 0 := by omega
              have hz' : candDown vols st.1 = 0 := by
                unfold candDown
                rw [if_pos hvi0]
              rw [hz'] at hdn_pos
              exact lt_irrefl 0 hdn_pos
            have hdnval : candDown vols st.1 = vols (st.1 - 1) := by
              unfold candDown
              rw [if_neg (by omega)]
            have hinv' : VAInv vols nb (st.1 - 1, st.2.1, st.2.2 + candDown vols st.1) := by
              refine ⟨by dsimp only; omega, by dsimp only; omega, ?_⟩
              show st.2.2 + candDown vols st.1 = rangeVol vols (st.1 - 1) st.2.1
              rw [hdnval, rangeVol_pred_left vols st.1 st.2.1 hvi h1, h3]
              ring
            have hmeas : (st.1 - 1, st.2.1, st.2.2 + candDown vols st.1).1
                + (nb - 1 - (st.1 - 1, st.2.1, st.2.2 + candDown vols st.1).2.1) ≤ fuel := by
              dsimp only
              omega
            exact ih _ hmeas hinv'
    · rw [if_neg hg]
      refine ⟨⟨h1, h2, h3⟩, ?_⟩
      push_neg at hg
      by_cases hcur : st.2.2 < target
      · right; right
        have := hg hcur
        omega
      · left
        exact not_lt.mp hcur

lemma pmNb_pos (df : List Bar) : 0 < pmNb df := by
  show 0 < min 20 (if 1 < (df.map Bar.close).dedup.length
    then (df.map Bar.close).dedup.length - 1 else 1)
  split <;> omega

lemma pmGrouped_ne_nil (df : List Bar) : pmGrouped df ≠ [] := by
  unfold pmGrouped
  have h := pmNb_pos df
  intro hc
  have := congrArg List.length hc
  simp at this
  omega

lemma pmPocIdx_lt (df : List Bar) : pmPocIdx df < pmNb df := by
  unfold pmPocIdx
  rcases hfm : firstMax (pmGrouped df) with _ | y
  · exfalso
    rcases hg : pmGrouped df with _ | ⟨x, xs⟩
    · exact pmGrouped_ne_nil df hg
    · rw [hg] at hfm
      cases hfm
  · have hy : y ∈ pmGrouped df := firstMax_mem _ _ hfm
    obtain ⟨k, hk, rfl⟩ := List.mem_map.mp hy
    exact List.mem_range.mp hk

lemma pm_total_partition (df : List Bar) (hdf : df ≠ []) :
    ∑ k in Finset.range (pmNb df), pmBinVol df k = totalVolume df := by
  have hclne : df.map Bar.close ≠ [] := by simpa using hdf
  exact binVolume_partition df Bar.close (pmSpec df) (pmNb df)
    (fun b hb => mkBinSpec_idx_lt (df.map Bar.close) (pmNb df) hclne (pmNb_pos df)
      (Bar.close b) (List.mem_map_of_mem Bar.close hb))

/-- C2: for every session with at least 2 bars, non-negative volumes and
positive total volume, the summed volume of the bins included in the value
area (the contiguous range whose edges give VAL and VAH) is at least
`0.70 ×` the total session volume, unless the expansion stopped early with
both candidate neighbor volumes zero. -/
theorem value_area_volume_share (df : List Bar)
    (hv : ∀ b ∈ df, 0 ≤ b.volume) (hlen : 2 ≤ df.length)
    (ht : 0 < totalVolume df) :
    totalVolume df * (7 / 10) ≤
        rangeVol (pmBinVol df) (pmVAState df).1 (pmVAState df).2.1 ∨
      (candUp (pmBinVol df) (pmNb df) (pmVAState df).2.1 = 0 ∧
        candDown (pmBinVol df) (pmVAState df).1 = 0) := by
  have hdf : df ≠ [] := by
    intro hc
    rw [hc] at hlen
    simp at hlen
  have hnn : ∀ k, 0 ≤ pmBinVol df k :=
    fun k => binVolume_nonneg df Bar.close (pmSpec df) k hv
  have hpoc := pmPocIdx_lt df
  have hinit : VAInv (pmBinVol df) (pmNb df)
      (pmPocIdx df, pmPocIdx df, pmBinVol df (pmPocIdx df)) :=
    ⟨le_refl _, hpoc, (rangeVol_self (pmBinVol df) (pmPocIdx df)).symm⟩
  have hfuel : (pmPocIdx df, pmPocIdx df, pmBinVol df (pmPocIdx df)).1
      + (pmNb df - 1 - (pmPocIdx df, pmPocIdx df, pmBinVol df (pmPocIdx df)).2.1)
      ≤ pmNb df := by
    dsimp only
    omega
  obtain ⟨hinv, hpost⟩ : VAInv (pmBinVol df) (pmNb df) (pmVAState df) ∧
      VAPost (pmBinVol df) (pmNb df) (totalVolume df * (7 / 10)) (pmVAState df) :=
    vaLoop_post (pmBinVol df) (pmNb df)
      (totalVolume df * (7 / 10)) hnn (pmNb df)
      (pmPocIdx df, pmPocIdx df, pmBinVol df (pmPocIdx df)) hfuel hinit
  obtain ⟨hi1, hi2, hi3⟩ := hinv
  rcases hpost with hreach | hearly | hall
  · left
    rw [← hi3]
    exact hreach
  · right
    exact hearly
  · left
    have hrange : rangeVol (pmBinVol df) (pmVAState df).1 (pmVAState df).2.1
        = totalVolume df := by
      rw [hall.1, hall.2]
      have hIcc : Finset.Icc 0 (pmNb df - 1) = Finset.range (pmNb df) := by
        ext k
        simp only [Finset.mem_Icc, Finset.mem_range]
        have := pmNb_pos df
        omega
      unfold rangeVol
      rw [hIcc]
      exact pm_total_partition df hdf
    rw [hrange]
    linarith

/-- Witness for C2 at a three-bar session (the POC bin alone reaches 70%). -/
theorem value_area_volume_share_witness :
    totalVolume dfPM3 * (7 / 10) ≤
        rangeVol (pmBinVol dfPM3) (pmVAState dfPM3).1 (pmVAState dfPM3).2.1 ∨
      (candUp (pmBinVol dfPM3) (pmNb dfPM3) (pmVAState dfPM3).2.1 = 0 ∧
        candDown (pmBinVol dfPM3) (pmVAState dfPM3).1 = 0) :=
  value_area_volume_share dfPM3 (by with_unfolding_all decide)
    (by with_unfolding_all decide) (by with_unfolding_all decide)

lemma foldl_min_eq_of_ge {α : Type} [LinearOrder α] (l : List α) (a : α)
    (h : ∀ y ∈ l, a ≤ y) : l.foldl min a = a := by
  induction l with
  | nil => rfl
  | cons x xs ih =>
    rw [List.foldl_cons, min_eq_left (h x (List.mem_cons_self x xs))]
    exact ih (fun y hy => h y (List.mem_cons_of_mem x hy))

lemma minQ_mem (xs : List ℚ) (h : xs ≠ []) : minQ xs ∈ xs := by
  cases xs with
  | nil => exact absurd rfl h
  | cons x l =>
    rcases foldl_min_eq_init_or_mem l x with h' | h'
    · rw [minQ, h']
      exact List.mem_cons_self x l
    · exact List.mem_cons_of_mem x (by rw [minQ]; exact h')

lemma minDatetime_eq_minQ (df : List Bar) :
    minDatetime df = minQ (df.map Bar.datetime) := by
  cases df <;> rfl

lemma minLow_eq_minQ (df : List Bar) : minLow df = minQ (df.map Bar.low) := by
  cases df <;> rfl

lemma maxHigh_eq_maxQ (df : List Bar) : maxHigh df = maxQ (df.map Bar.high) := by
  cases df <;> rfl

lemma minLow_lt_exists (l : List Bar) (c : ℚ) (hne : l ≠ []) (h : minLow l < c) :
    ∃ b ∈ l, b.low < c := by
  have hmem : minQ (l.map Bar.low) ∈ l.map Bar.low :=
    minQ_mem _ (by simpa using hne)
  obtain ⟨b, hb, hbl⟩ := List.mem_map.mp hmem
  exact ⟨b, hb, by rw [hbl, ← minLow_eq_minQ]; exact h⟩

lemma maxHigh_gt_exists (l : List Bar) (c : ℚ) (hne : l ≠ []) (h : c < maxHigh l) :
    ∃ b ∈ l, c < b.high := by
  have hmem : maxQ (l.map Bar.high) ∈ l.map Bar.high := by
    cases hl : l.map Bar.high with
    | nil => simp [hl] at hne; exact absurd hne (by simpa using congrArg List.length hl)
    | cons x xs =>
      rcases foldl_max_eq_init_or_mem xs x with h' | h'
      · rw [maxQ, h']
        exact List.mem_cons_self x xs
      · exact List.mem_cons_of_mem x (by rw [maxQ]; exact h')
  obtain ⟨b, hb, hbh⟩ := List.mem_map.mp hmem
  exact ⟨b, hb, by rw [hbh, ← maxHigh_eq_maxQ]; exact h⟩

lemma window_ne_nil (df : List Bar) (m : ℚ) (hdf : df ≠ []) (hm : 0 < m) :
    df.filter (fun b => decide (b.datetime < minDatetime df + m)) ≠ [] := by
  have hmem : minQ (df.map Bar.datetime) ∈ df.map Bar.datetime :=
    minQ_mem _ (by simpa using hdf)
  obtain ⟨b, hb, hbt⟩ := List.mem_map.mp hmem
  have hbw : b.datetime < minDatetime df + m := by
    rw [hbt, ← minDatetime_eq_minQ]
    linarith
  intro hc
  have : b ∈ df.filter (fun b => decide (b.datetime < minDatetime df + m)) :=
    List.mem_filter.mpr ⟨hb, by simpa using hbw⟩
  rw [hc] at this
  cases this

lemma minDatetime_append (df extra : List Bar) (m : ℚ) (hdf : df ≠ []) (hm : 0 < m)
    (hextra : ∀ b ∈ extra, minDatetime df + m ≤ b.datetime) :
    minDatetime (df ++ extra) = minDatetime df := by
  cases df with
  | nil => exact absurd rfl hdf
  | cons b bs =>
    rw [minDatetime_eq_minQ, List.map_append]
    have hcons : (b :: bs).map Bar.datetime = b.datetime :: bs.map Bar.datetime := rfl
    rw [hcons]
    show (bs.map Bar.datetime ++ extra.map Bar.datetime).foldl min b.datetime
      = minDatetime (b :: bs)
    rw [List.foldl_append]
    have hstep : (bs.map Bar.datetime).foldl min b.datetime = minDatetime (b :: bs) := rfl
    rw [hstep]
    apply foldl_min_eq_of_ge
    intro y hy
    obtain ⟨e, he, rfl⟩ := List.mem_map.mp hy
    have := hextra e he
    linarith

lemma opening_range_fst (df : List Bar) (m : ℚ) (hdf : df ≠ []) (hm : 0 < m) :
    (calculate_opening_range df m).1 =
      some (maxHigh (df.filter (fun b => decide (b.datetime < minDatetime df + m))),
        minLow (df.filter (fun b => decide (b.datetime < minDatetime df + m)))) := by
  have hW := window_ne_nil df m hdf hm
  simp only [calculate_opening_range]
  rw [if_neg hdf, if_neg hW]
  by_cases hrest : df.filter (fun b => !decide (b.datetime < minDatetime df + m)) = []
  · rw [if_pos hrest]
  · rw [if_neg hrest]

/-- C6: `orh`/`orl` are the max high / min low over exactly the bars with
`timestamp < first-bar timestamp + minutes`; appending bars at or after the
cutoff changes nothing; and when no bar falls in the window the function
returns the explicit no-data sentinel instead of raising. -/
theorem opening_range_window_containment (df extra : List Bar) (m : ℚ)
    (hdf : df ≠ []) (hm : 0 < m)
    (hextra : ∀ b ∈ extra, minDatetime df + m ≤ b.datetime) :
    (calculate_opening_range df m).1 =
        some (maxHigh (df.filter (fun b => decide (b.datetime < minDatetime df + m))),
          minLow (df.filter (fun b => decide (b.datetime < minDatetime df + m)))) ∧
      (calculate_opening_range (df ++ extra) m).1 = (calculate_opening_range df m).1 ∧
      (∀ m', df.filter (fun b => decide (b.datetime < minDatetime df + m')) = [] →
        calculate_opening_range df m' = (none, .noOpeningRangeData)) := by
  have hdfe : df ++ extra ≠ [] := by
    intro hc
    exact hdf (List.append_eq_nil.mp hc).1
  have hmin := minDatetime_append df extra m hdf hm hextra
  have hfilter : (df ++ extra).filter
        (fun b => decide (b.datetime < minDatetime (df ++ extra) + m))
      = df.filter (fun b => decide (b.datetime < minDatetime df + m)) := by
    rw [hmin, List.filter_append]
    have hex : extra.filter (fun b => decide (b.datetime < minDatetime df + m)) = [] := by
      apply List.filter_eq_nil_iff.mpr
      intro b hb
      have := hextra b hb
      simp only [decide_eq_true_eq]
      linarith
    rw [hex, List.append_nil]
  refine ⟨opening_range_fst df m hdf hm, ?_, ?_⟩
  · rw [opening_range_fst df m hdf hm, opening_range_fst (df ++ extra) m hdfe hm, hfilter]
  · intro m' hempty
    simp only [calculate_opening_range]
    rw [if_neg hdf, if_pos hempty]

/-- Witness for C6: a two-bar session plus one later bar outside the window. -/
theorem opening_range_window_containment_witness :
    (calculate_opening_range dfVW 30).1 =
        some (maxHigh (dfVW.filter (fun b => decide (b.datetime < minDatetime dfVW + 30))),
          minLow (dfVW.filter (fun b => decide (b.datetime < minDatetime dfVW + 30)))) ∧
      (calculate_opening_range (dfVW ++ [⟨40, 1, 9, 1, 5, 2⟩]) 30).1 =
        (calculate_opening_range dfVW 30).1 ∧
      (∀ m', dfVW.filter (fun b => decide (b.datetime < minDatetime dfVW + m')) = [] →
        calculate_opening_range dfVW m' = (none, .noOpeningRangeData)) :=
  opening_range_window_containment dfVW [⟨40, 1, 9, 1, 5, 2⟩] 30
    (by with_unfolding_all decide) (by with_unfolding_all decide)
    (by with_unfolding_all decide)

/-- C10: the "Price broke both ORH and ORL, but timing data is incomplete."
branch is unreachable — whenever the rest-of-day bars break a side, the
earliest break timestamp on that side exists (the filtered series is
non-empty, so its min is a real time, never `NaT`). -/
theorem opening_range_no_incomplete_narrative (df : List Bar) (m : ℚ) :
    (calculate_opening_range df m).2 ≠ ORNarrative.bothIncomplete := by
  simp only [calculate_opening_range]
  by_cases hdf : df = []
  · rw [if_pos hdf]
    intro h
    cases h
  · rw [if_neg hdf]
    by_cases hW : df.filter (fun b => decide (b.datetime < minDatetime df + m)) = []
    · rw [if_pos hW]
      intro h
      cases h
    · rw [if_neg hW]
      by_cases hrest : df.filter (fun b => !decide (b.datetime < minDatetime df + m)) = []
      · rw [if_pos hrest]
        intro h
        cases h
      · rw [if_neg hrest]
        by_cases hbl : minLow (df.filter (fun b => !decide (b.datetime < minDatetime df + m)))
            < minLow (df.filter (fun b => decide (b.datetime < minDatetime df + m))) <;>
        by_cases hbh : maxHigh (df.filter (fun b => !decide (b.datetime < minDatetime df + m)))
            > maxHigh (df.filter (fun b => decide (b.datetime < minDatetime df + m)))
        · rw [if_neg (by intro h; exact h.1 hbl), if_neg (by intro h; exact h.2 hbl),
            if_neg (by intro h; exact h.1 hbh), if_pos ⟨hbh, hbl⟩]
          obtain ⟨b1, hb1, hb1lt⟩ := minLow_lt_exists _ _ hrest hbl
          obtain ⟨b2, hb2, hb2gt⟩ := maxHigh_gt_exists _ _ hrest hbh
          have htl : (df.filter (fun b => !decide (b.datetime < minDatetime df + m))).filter
              (fun b => decide (b.low < minLow (df.filter
                (fun b => decide (b.datetime < minDatetime df + m))))) ≠ [] := by
            have hmem : b1 ∈ (df.filter (fun b => !decide (b.datetime < minDatetime df + m))).filter
                (fun b => decide (b.low < minLow (df.filter
                  (fun b => decide (b.datetime < minDatetime df + m))))) := by
              apply List.mem_filter.mpr
              refine ⟨hb1, ?_⟩
              simp only [decide_eq_true_eq]
              exact hb1lt
            intro hc
            rw [hc] at hmem
            cases hmem
          have hth : (df.filter (fun b => !decide (b.datetime < minDatetime df + m))).filter
              (fun b => decide (b.high > maxHigh (df.filter
                (fun b => decide (b.datetime < minDatetime df + m))))) ≠ [] := by
            have hmem : b2 ∈ (df.filter (fun b => !decide (b.datetime < minDatetime df + m))).filter
                (fun b => decide (b.high > maxHigh (df.filter
                  (fun b => decide (b.datetime < minDatetime df + m))))) := by
              apply List.mem_filter.mpr
              refine ⟨hb2, ?_⟩
              simp only [gt_iff_lt, decide_eq_true_eq]
              exact hb2gt
            intro hc
            rw [hc] at hmem
            cases hmem
          rcases hl : (df.filter (fun b => !decide (b.datetime < minDatetime df + m))).filter
              (fun b => decide (b.low < minLow (df.filter
                (fun b => decide (b.datetime < minDatetime df + m))))) with _ | ⟨x, xs⟩
          · exact absurd hl htl
          · rcases hh : (df.filter (fun b => !decide (b.datetime < minDatetime df + m))).filter
                (fun b => decide (b.high > maxHigh (df.filter
                  (fun b => decide (b.datetime < minDatetime df + m))))) with _ | ⟨y, ys⟩
            · exact absurd hh hth
            · rw [hl, hh]
              show (some _, if _ < _ then ORNarrative.bothLowFirst _ _
                else ORNarrative.bothHighFirst _ _).2 ≠ ORNarrative.bothIncomplete
              split
              · intro h
                cases h
              · intro h
                cases h
        · rw [if_neg (by intro h; exact h.1 hbl), if_neg (by intro h; exact h.2 hbl),
            if_pos ⟨(by intro h; exact hbh h), hbl⟩]
          intro h
          cases h
        · rw [if_neg (by intro h; exact h.2 hbh), if_pos ⟨hbh, hbl⟩]
          intro h
          cases h
        · rw [if_pos ⟨hbl, (by intro h; exact hbh h)⟩]
          intro h
          cases h

lemma actionParts_mem (hod lod : ℚ) (b : Bar) :
    ("Set High-of-Day" ∈ actionParts hod lod b ↔ hod ≤ b.high) ∧
    ("Set Low-of-Day" ∈ actionParts hod lod b ↔ b.low ≤ lod) ∧
    ("Strong Up-Bar" ∈ actionParts hod lod b ↔ b.opn < b.close) ∧
    ("Strong Down-Bar" ∈ actionParts hod lod b ↔ b.close < b.opn) ∧
    ("Neutral Bar" ∈ actionParts hod lod b ↔ b.close = b.opn) := by
  unfold actionParts
  by_cases h1 : b.high ≥ hod <;> by_cases h2 : b.low ≤ lod <;>
    rcases lt_trichotomy b.close b.opn with h3 | h3 | h3 <;>
      simp [h1, h2, h3, ne_of_lt, ne_of_gt, le_of_lt, not_lt.mpr]

set_option maxRecDepth 10000 in
/-- C7 counterexample: on a session of two bars tied at volume 7, the
reversed ordering is a volume-descending permutation of the session —
`sort_values` with the default unstable quicksort guarantees nothing more —
yet it does not keep the equal-volume bars in their original chronological
order, and the detector built on it returns the later bar first. -/
theorem key_volume_events_stability_counterexample :
    sC7.Perm dfC7 ∧
      List.Pairwise (fun a b : Bar => b.volume ≤ a.volume) sC7 ∧
      sC7.filter (fun b => decide (b.volume = 7))
        ≠ dfC7.filter (fun b => decide (b.volume = 7)) ∧
      (find_key_volume_events dfC7 3 sC7).map KeyEvent.time = [5, 0] := by
  exact ⟨by with_unfolding_all decide, by with_unfolding_all decide,
    by with_unfolding_all decide, by with_unfolding_all rfl⟩

set_option maxRecDepth 10000 in
/-- C7 (amended): for every non-empty session and every admissible
volume-descending ordering `S` of its bars, the detector returns exactly
`min(count, #bars)` events ordered by volume descending; every bar left out
has volume at most that of every bar kept; each event carries the bar's
time, close and volume and is labelled with whether the bar set the session
high, set the session low, and whether it is an up-, down- or neutral bar.
(The relative order of equal-volume bars follows the unstable default sort
and is not guaranteed to be chronological.)  On the 3-bar fixture with
volumes [10, 10, 1000], whose 1000-volume bar — the unique maximum — sets
the session low and closes below its open, that bar is ranked first with
labels `["Set Low-of-Day", "Strong Down-Bar"]` under every admissible
ordering. -/
theorem key_volume_events_spec (df S : List Bar) (count : ℕ)
    (hdf : df ≠ []) (hS : S.Perm df)
    (hsorted : List.Pairwise (fun a b : Bar => b.volume ≤ a.volume) S) :
    (find_key_volume_events df count S).length = min count df.length ∧
    List.Pairwise (fun e1 e2 : KeyEvent => e2.vol ≤ e1.vol)
      (find_key_volume_events df count S) ∧
    (∀ a ∈ S.take count, ∀ b ∈ S.drop count, b.volume ≤ a.volume) ∧
    (∀ e ∈ find_key_volume_events df count S, ∃ b ∈ df,
      e.time = b.datetime ∧ e.price = b.close ∧ e.vol = b.volume ∧
      ("Set High-of-Day" ∈ e.actions ↔ maxHigh df ≤ b.high) ∧
      ("Set Low-of-Day" ∈ e.actions ↔ b.low ≤ minLow df) ∧
      ("Strong Up-Bar" ∈ e.actions ↔ b.opn < b.close) ∧
      ("Strong Down-Bar" ∈ e.actions ↔ b.close < b.opn) ∧
      ("Neutral Bar" ∈ e.actions ↔ b.close = b.opn)) ∧
    (∀ T : List Bar, T.Perm dfKV →
      List.Pairwise (fun a b : Bar => b.volume ≤ a.volume) T →
      (find_key_volume_events dfKV 3 T).head? =
        some ⟨10, 10, 1000, ["Set Low-of-Day", "Strong Down-Bar"]⟩) := by
  have hfke : find_key_volume_events df count S
      = (S.take count).map (mkKeyEvent (maxHigh df) (minLow df)) := by
    unfold find_key_volume_events
    rw [if_neg hdf]
  refine ⟨?_, ?_, ?_, ?_, ?_⟩
  · rw [hfke, List.length_map, List.length_take, hS.length_eq]
  · rw [hfke]
    exact List.Pairwise.map (mkKeyEvent (maxHigh df) (minLow df))
      (fun a b hab => hab)
      (hsorted.sublist (List.take_sublist count S))
  · intro a ha b hb
    have hsplit : S.take count ++ S.drop count = S := List.take_append_drop count S
    have hpw' := hsorted
    rw [← hsplit] at hpw'
    exact (List.pairwise_append.mp hpw').2.2 a ha b hb
  · intro e he
    rw [hfke] at he
    obtain ⟨b, hb, rfl⟩ := List.mem_map.mp he
    have hbdf : b ∈ df := hS.mem_iff.mp (List.mem_of_mem_take hb)
    obtain ⟨hH, hL, hU, hD, hN⟩ := actionParts_mem (maxHigh df) (minLow df) b
    exact ⟨b, hbdf, rfl, rfl, rfl, hH, hL, hU, hD, hN⟩
  · intro T hT hTs
    obtain ⟨t, ht⟩ := head_of_sorted_perm_unique_max dfKV T bKV hT hTs
      (by with_unfolding_all decide) (by with_unfolding_all decide)
    have hfke' : find_key_volume_events dfKV 3 T
        = (T.take 3).map (mkKeyEvent (maxHigh dfKV) (minLow dfKV)) := by
      unfold find_key_volume_events
      rw [if_neg (by with_unfolding_all decide)]
    rw [hfke', ht]
    with_unfolding_all rfl

set_option maxRecDepth 10000 in
/-- Witness for C7 at the `[10, 10, 1000]` fixture under one admissible
ordering. -/
theorem key_volume_events_spec_witness :
    (find_key_volume_events dfKV 3 sKV).length = min 3 dfKV.length ∧
    (find_key_volume_events dfKV 3 sKV).head? =
      some ⟨10, 10, 1000, ["Set Low-of-Day", "Strong Down-Bar"]⟩ := by
  have h := key_volume_events_spec dfKV sKV 3
    (by with_unfolding_all decide) (by with_unfolding_all decide)
    (by with_unfolding_all decide)
  exact ⟨h.1, h.2.2.2.2 sKV (by with_unfolding_all decide)
    (by with_unfolding_all decide)⟩

/-- C8 counterexample: a session whose every Low stays strictly above the
VWAP series but which also counts more than 4 close/VWAP crossings; the
crossing test runs first, so the classifier returns "Crossed multiple times",
not "Support". -/
theorem vwap_support_counterexample :
    df8 ≠ [] ∧ ¬ (calculate_vwap df8).all Option.isNone ∧
      allLowsAbove df8 (calculate_vwap df8) = true ∧
      get_vwap_interaction df8 (calculate_vwap df8) = "Crossed multiple times" ∧
      get_vwap_interaction df8 (calculate_vwap df8) ≠ "Support" := by
  refine ⟨?_, ?_, ?_, ?_, ?_⟩ <;> with_unfolding_all decide

/-- C8 (amended): for every non-empty session with a defined VWAP series, if
every bar's Low is strictly above the VWAP value at that bar AND at most 4
crossings are counted, the VWAP interaction classifier returns "Support". -/
theorem vwap_support_classification (df : List Bar) (vwap : List (Option ℚ))
    (hne : ¬ (df = [] ∨ vwap.all Option.isNone))
    (hcr : countCrosses none df vwap ≤ 4)
    (hlow : allLowsAbove df vwap = true) :
    get_vwap_interaction df vwap = "Support" := by
  unfold get_vwap_interaction
  rw [if_neg hne, if_neg (not_lt.mpr hcr), if_pos hlow]

/-- Witness for C8 on a one-row session with VWAP 1/3 and Low 1. -/
theorem vwap_support_classification_witness :
    get_vwap_interaction df8w (calculate_vwap df8w) = "Support" :=
  vwap_support_classification df8w (calculate_vwap df8w)
    (by with_unfolding_all decide) (by with_unfolding_all decide)
    (by with_unfolding_all decide)
